import Mathlib

/-!
Verification of the subtitle-translation pipeline (`src/App.tsx`,
`src/types.ts`) of the subtranslatorReact repository.

The pipeline in `App.tsx` (`handleStartProcessing`) is embedded shallowly:

* `ParsedSubtitle` mirrors the interface in `src/types.ts`.
* The remote translation call `translateBatch` is an oracle
  `tc : List String → Except String (List String)`.
* JavaScript in-place mutation of the shared `parsed` array is modelled by
  explicit state passing: a batch is the list of *indices* (into `parsed`)
  of its entries, so aliasing between `validSubtitles` and `parsed` is
  preserved exactly.
* Batches inside one concurrency window touch pairwise disjoint indices and
  `translateBatch` results depend only on each batch's own texts, so the
  final array state of the concurrent `Promise.all` execution equals the
  state of running the batches sequentially in source order; the embedding
  uses that sequential fold for state, and a separate event-trace model
  (parametrised by an arbitrary per-window settle order) for the temporal
  dispatch/settle claims.
-/

namespace Subtranslator

/-- Whitespace as matched by JavaScript `trim` / `\s` on the characters
that occur in subtitle files. -/
def isWS (c : Char) : Bool :=
  c = ' ' || c = '\t' || c = '\n' || c = '\r'

/-- `String.trim` of JavaScript: drop leading and trailing whitespace. -/
def trimList (l : List Char) : List Char :=
  ((l.dropWhile isWS).reverse.dropWhile isWS).reverse

/-- JavaScript `s.trim()`. -/
def jsTrim (s : String) : String :=
  (trimList s.toList).asString

/-- Scanner for the lazy groups of the SDH regex `/\[.*?\]|\(.*?\)/`:
starting right after an opening bracket, find the matching closing
character; JavaScript `.` does not match a newline, so the scan fails on
`'\n'`.  Returns the remainder of the input after the closing character. -/
def findClose (close : Char) : List Char → Option (List Char)
  | [] => none
  | c :: rest =>
      if c = close then some rest
      else if c = '\n' then none
      else findClose close rest

theorem findClose_length_le {close : Char} :
    ∀ {l l' : List Char}, findClose close l = some l' → l'.length ≤ l.length := by
  intro l
  induction l with
  | nil => intro l' h; simp [findClose] at h
  | cons c rest ih =>
      intro l' h
      simp only [findClose] at h
      split at h
      · cases h; simp
      · split at h
        · cases h
        · exact Nat.le_succ_of_le (ih h)

/-- Global replacement `text.replace(/\[.*?\]|\(.*?\)/g, '')`: at each
position, a shortest `[...]` or `(...)` group (not crossing a newline) is
removed; otherwise the character is kept and the scan advances.  The
structural `fuel` argument only bounds the recursion depth: every step
consumes at least one input character (`findClose_length_le`), so
`fuel = input length` never runs out. -/
def sdhScanF : Nat → List Char → List Char
  | _, [] => []
  | 0, l => l
  | fuel + 1, c :: rest =>
      if c = '[' then
        match findClose ']' rest with
        | some rest' => sdhScanF fuel rest'
        | none => c :: sdhScanF fuel rest
      else if c = '(' then
        match findClose ')' rest with
        | some rest' => sdhScanF fuel rest'
        | none => c :: sdhScanF fuel rest
      else c :: sdhScanF fuel rest

/-- The SDH replacement scan, at fuel always sufficient for the input. -/
def sdhScan (l : List Char) : List Char :=
  sdhScanF l.length l

/-- `p.text.replace(/\[.*?\]|\(.*?\)/g, '')` as a string transform. -/
def sdhReplace (s : String) : String :=
  (sdhScan s.toList).asString

/-- `src/types.ts`: interface `ParsedSubtitle`. -/
structure ParsedSubtitle where
  id : Option String := none
  timestamp : Option String := none
  text : String
  isHeader : Bool := false
  isMalformed : Bool := false
deriving DecidableEq, Repr

instance : Inhabited ParsedSubtitle := ⟨{ text := "" }⟩

/-- `src/types.ts`: `ProcessingStatus`. -/
inductive ProcessingStatus where
  | pending | processing | done | error
deriving DecidableEq, Repr

/-- The SDH-stripping step of `handleStartProcessing` (App.tsx lines
109–115): for every parsed entry with truthy (nonempty) `text`, replace
the SDH annotations and trim; other entries are untouched. -/
def applySDH (parsed : List ParsedSubtitle) : List ParsedSubtitle :=
  parsed.map fun p =>
    if p.text ≠ "" then { p with text := jsTrim (sdhReplace p.text) } else p

/-- The filter predicate of App.tsx line 123:
`!p.isHeader && !p.isMalformed && p.text.trim().length > 0`. -/
def isValid (p : ParsedSubtitle) : Bool :=
  !p.isHeader && !p.isMalformed && decide ((jsTrim p.text).length > 0)

/-- The indices (into `parsed`) of the entries of `validSubtitles`
(App.tsx line 123); indices model the JavaScript aliasing of the filtered
array with `parsed`. -/
def validIdx (parsed : List ParsedSubtitle) : List Nat :=
  (List.range parsed.length).filter fun i => isValid (parsed.getD i default)

/-- `BATCH_SIZE` (App.tsx line 120). -/
def BATCH_SIZE : Nat := 100

/-- `CONCURRENT_LIMIT` (App.tsx line 121). -/
def CONCURRENT_LIMIT : Nat := 5

/-- The slicing loop of App.tsx lines 127–129 (also reused for the
concurrency windows of lines 154–158): successive slices of size at most
`n`. -/
def chunksF (n : Nat) : Nat → List α → List (List α)
  | _, [] => []
  | 0, _ :: _ => []
  | fuel + 1, a :: as =>
      if n = 0 then []
      else (a :: as).take n :: chunksF n fuel ((a :: as).drop n)

/-- The slicing loop at fuel always sufficient for the input: each step
removes at least one element (the size is positive), so `fuel = length`
never runs out. -/
def chunks (n : Nat) (l : List α) : List (List α) :=
  chunksF n l.length l

/-- `chunksF` does not depend on the fuel as long as it is sufficient. -/
theorem chunksF_fuel_invariant {n : Nat} :
    ∀ (fuel fuel' : Nat) (l : List α), l.length ≤ fuel → l.length ≤ fuel' →
      chunksF n fuel l = chunksF n fuel' l := by
  intro fuel
  induction fuel with
  | zero =>
      intro fuel' l hf hf'
      have : l = [] := List.length_eq_zero.mp (Nat.le_zero.mp hf)
      subst this
      cases fuel' <;> rfl
  | succ fuel ih =>
      intro fuel' l hf hf'
      cases l with
      | nil => cases fuel' <;> rfl
      | cons a as =>
          cases fuel' with
          | zero => simp at hf'
          | succ fuel'' =>
              by_cases hn : n = 0
              · simp [chunksF, hn]
              · simp only [chunksF, if_neg hn]
                have hd : ((a :: as).drop n).length ≤ fuel := by
                  simp at hf ⊢; omega
                have hd' : ((a :: as).drop n).length ≤ fuel'' := by
                  simp at hf' ⊢; omega
                rw [ih fuel'' _ hd hd']

/-- Unfolding equation of `chunks` on a nonempty list and positive size. -/
theorem chunks_eq {n : Nat} (hn : 0 < n) {l : List α} (hl : l ≠ []) :
    chunks n l = l.take n :: chunks n (l.drop n) := by
  match l with
  | [] => exact absurd rfl hl
  | a :: as =>
      show chunksF n ((a :: as).length) (a :: as) = _
      simp only [List.length_cons, chunksF, if_neg (Nat.pos_iff_ne_zero.mp hn)]
      congr 1
      exact chunksF_fuel_invariant as.length _ _ (by simp; omega) le_rfl

/-- The texts sent to `translateBatch` for a batch
(`batch.map(s => s.text)`, App.tsx line 135), read from the current
array state. -/
def batchTexts (st : List ParsedSubtitle) (batch : List Nat) : List String :=
  batch.map fun i => (st.getD i default).text

/-- `translatedBatch[idx] || sub.text` (App.tsx line 139): an absent
(out-of-range, modelled by the default `""`) or empty translated value is
falsy, so the original text is kept. -/
def newText (old tnew : String) : String :=
  if tnew = "" then old else tnew

/-- One assignment `sub.text = translatedBatch[idx] || sub.text`. -/
def applyOne (st : List ParsedSubtitle) (i : Nat) (t : String) :
    List ParsedSubtitle :=
  st.set i (let e := st.getD i default; { e with text := newText e.text t })

/-- The `batch.forEach` loop of App.tsx lines 138–140 over
(index, translated text) pairs. -/
def applyTr (st : List ParsedSubtitle) :
    List (Nat × String) → List ParsedSubtitle
  | [] => st
  | (i, t) :: rest => applyTr (applyOne st i t) rest

/-- `processBatch` (App.tsx lines 134–151), state part: on success the
translated texts are written positionally; on any failure the state is
left unchanged (the `catch` branch only logs). -/
def processBatch (tc : List String → Except String (List String))
    (st : List ParsedSubtitle) (batch : List Nat) : List ParsedSubtitle :=
  match tc (batchTexts st batch) with
  | .error _ => st
  | .ok ts => applyTr st (batch.enum.map fun pi => (pi.2, ts.getD pi.1 ""))

/-- Sequential execution of a list of batches (state-equivalent to the
windowed concurrent execution, see the module docstring). -/
def runBatches (tc : List String → Except String (List String))
    (st : List ParsedSubtitle) (bs : List (List Nat)) : List ParsedSubtitle :=
  bs.foldl (processBatch tc) st

/-- The whole translation phase of one file (App.tsx lines 123–158):
filter, partition into batches of `BATCH_SIZE`, run all batches. -/
def runPipeline (tc : List String → Except String (List String))
    (parsed : List ParsedSubtitle) : List ParsedSubtitle :=
  runBatches tc parsed (chunks BATCH_SIZE (validIdx parsed))

/-! ### Basic lemmas about the embedded pipeline -/

theorem length_applyOne (st : List ParsedSubtitle) (i : Nat) (t : String) :
    (applyOne st i t).length = st.length := by
  simp [applyOne]

theorem length_applyTr :
    ∀ (pairs : List (Nat × String)) (st : List ParsedSubtitle),
      (applyTr st pairs).length = st.length
  | [], _ => rfl
  | (i, t) :: rest, st => by
      rw [applyTr, length_applyTr rest, length_applyOne]

theorem length_processBatch (tc : List String → Except String (List String))
    (st : List ParsedSubtitle) (batch : List Nat) :
    (processBatch tc st batch).length = st.length := by
  unfold processBatch
  split
  · rfl
  · rw [length_applyTr]

theorem length_runBatches (tc : List String → Except String (List String)) :
    ∀ (bs : List (List Nat)) (st : List ParsedSubtitle),
      (runBatches tc st bs).length = st.length
  | [], _ => rfl
  | b :: rest, st => by
      show (runBatches tc (processBatch tc st b) rest).length = st.length
      rw [length_runBatches tc rest, length_processBatch]

theorem getD_applyOne_ne (st : List ParsedSubtitle) {i j : Nat} (t : String)
    (h : j ≠ i) (d : ParsedSubtitle) :
    (applyOne st i t).getD j d = st.getD j d := by
  simp [applyOne, List.getD]
  rw [List.getElem?_set_ne (Ne.symm h)]

theorem getD_applyOne_eq (st : List ParsedSubtitle) {i : Nat} (t : String)
    (hi : i < st.length) (d : ParsedSubtitle) :
    (applyOne st i t).getD i d =
      (let e := st.getD i d; { e with text := newText e.text t }) := by
  simp [applyOne, List.getD, List.getElem?_set_eq, hi]

theorem applyTr_getD_not_mem :
    ∀ (pairs : List (Nat × String)) (st : List ParsedSubtitle) {j : Nat}
      (d : ParsedSubtitle), j ∉ pairs.map Prod.fst →
      (applyTr st pairs).getD j d = st.getD j d
  | [], _, _, _, _ => rfl
  | (i, t) :: rest, st, j, d, hj => by
      rw [applyTr]
      have hji : j ≠ i := by
        intro h; exact hj (by simp [h])
      rw [applyTr_getD_not_mem rest _ d (by intro h; exact hj (by simp [h])),
        getD_applyOne_ne st t hji]

theorem applyTr_getD_mem :
    ∀ (pairs : List (Nat × String)) (st : List ParsedSubtitle) {i : Nat}
      {t : String} (d : ParsedSubtitle),
      (pairs.map Prod.fst).Nodup → (i, t) ∈ pairs → i < st.length →
      (applyTr st pairs).getD i d =
        (let e := st.getD i d; { e with text := newText e.text t })
  | [], _, _, _, _, _, hmem, _ => absurd hmem (List.not_mem_nil _)
  | (i0, t0) :: rest, st, i, t, d, hnd, hmem, hi => by
      rw [applyTr]
      rw [List.map_cons] at hnd
      have h1 : i0 ∉ rest.map Prod.fst := (List.nodup_cons.mp hnd).1
      have h2 : (rest.map Prod.fst).Nodup := (List.nodup_cons.mp hnd).2
      rcases List.mem_cons.mp hmem with heq | hrest
      · injection heq with hi0 ht0
        subst hi0; subst ht0
        rw [applyTr_getD_not_mem rest _ d h1, getD_applyOne_eq st t hi d]
      · have hne : i ≠ i0 := by
          intro h; subst h
          exact h1 (List.mem_map.mpr ⟨(i, t), hrest, rfl⟩)
        have := applyTr_getD_mem rest (applyOne st i0 t0) d h2
          hrest (by rw [length_applyOne]; exact hi)
        rw [this, getD_applyOne_ne st t0 hne]

theorem processBatch_getD_not_mem
    (tc : List String → Except String (List String))
    (st : List ParsedSubtitle) {batch : List Nat} {j : Nat}
    (hj : j ∉ batch) (d : ParsedSubtitle) :
    (processBatch tc st batch).getD j d = st.getD j d := by
  unfold processBatch
  cases h : tc (batchTexts st batch) with
  | error e => rfl
  | ok ts =>
      refine applyTr_getD_not_mem _ _ _ ?_
      have hmap : ((batch.enum.map fun pi => (pi.2, ts.getD pi.1 "")).map Prod.fst)
          = batch := by
        rw [List.map_map]; exact List.enum_map_snd batch
      rw [hmap]; exact hj

theorem runBatches_getD_not_mem
    (tc : List String → Except String (List String)) :
    ∀ (bs : List (List Nat)) (st : List ParsedSubtitle) {j : Nat}
      (d : ParsedSubtitle), (∀ b ∈ bs, j ∉ b) →
      (runBatches tc st bs).getD j d = st.getD j d
  | [], _, _, _, _ => rfl
  | b :: rest, st, j, d, hj => by
      show (runBatches tc (processBatch tc st b) rest).getD j d = st.getD j d
      rw [runBatches_getD_not_mem tc rest _ d fun b' hb' => hj b' (by simp [hb']),
        processBatch_getD_not_mem tc st (hj b (by simp)) d]

/-- Positional assignment for a successful batch: the entry at batch
position `p` receives translated text `ts[p]`, falling back to its
previous text when that value is absent or empty. -/
theorem processBatch_getD_pos
    (tc : List String → Except String (List String))
    (st : List ParsedSubtitle) {batch : List Nat} {ts : List String}
    (hok : tc (batchTexts st batch) = .ok ts) (hnd : batch.Nodup)
    {p : Nat} (hp : p < batch.length) (hlt : batch.getD p 0 < st.length)
    (d : ParsedSubtitle) :
    (processBatch tc st batch).getD (batch.getD p 0) d =
      (let e := st.getD (batch.getD p 0) d
       { e with text := newText e.text (ts.getD p "") }) := by
  unfold processBatch
  rw [hok]
  refine applyTr_getD_mem _ _ _ ?_ ?_ hlt
  · have hmap : ((batch.enum.map fun pi => (pi.2, ts.getD pi.1 "")).map Prod.fst)
        = batch := by
      rw [List.map_map]; exact List.enum_map_snd batch
    rw [hmap]; exact hnd
  · refine List.mem_map.mpr ⟨(p, batch.getD p 0), ?_, rfl⟩
    have : batch.enum.getD p (0, 0) = (p, batch.getD p 0) := by
      rw [List.getD_eq_getElem _ _ (by simpa using hp),
        List.getElem_enum, List.getD_eq_getElem _ _ hp]
    rw [← this, List.getD_eq_getElem _ _ (by simpa using hp)]
    exact List.getElem_mem _

/-! ### Properties of `chunks` -/

theorem chunks_flatten {n : Nat} (hn : 0 < n) (l : List α) :
    (chunks n l).flatten = l := by
  by_cases hl : l = []
  · subst hl
    cases n <;> simp [chunks, chunksF]
  · rw [chunks_eq hn hl, List.flatten_cons,
      chunks_flatten hn (l.drop n), List.take_append_drop]
termination_by l.length
decreasing_by
  have : 0 < l.length := List.length_pos.mpr hl
  simp [List.length_drop]; omega

theorem mem_chunks_sublist {n : Nat} :
    ∀ {l : List α}, ∀ b ∈ chunks n l, b.Sublist l := by
  intro l
  by_cases hn : 0 < n
  · by_cases hl : l = []
    · subst hl; cases n <;> simp [chunks, chunksF]
    · rw [chunks_eq hn hl]
      intro b hb
      rcases List.mem_cons.mp hb with rfl | hb'
      · exact List.take_sublist n l
      · exact (mem_chunks_sublist b hb').trans (List.drop_sublist n l)
  · intro b hb
    interval_cases n
    cases l <;> simp [chunks, chunksF] at hb
termination_by l => l.length
decreasing_by
  have : 0 < l.length := List.length_pos.mpr hl
  simp [List.length_drop]; omega

theorem mem_chunks_length_le {n : Nat} :
    ∀ {l : List α}, ∀ b ∈ chunks n l, b.length ≤ n := by
  intro l
  by_cases hn : 0 < n
  · by_cases hl : l = []
    · subst hl; cases n <;> simp [chunks, chunksF]
    · rw [chunks_eq hn hl]
      intro b hb
      rcases List.mem_cons.mp hb with rfl | hb'
      · simpa using List.length_take_le n l
      · exact mem_chunks_length_le b hb'
  · intro b hb
    interval_cases n
    cases l <;> simp [chunks, chunksF] at hb
termination_by l => l.length
decreasing_by
  have : 0 < l.length := List.length_pos.mpr hl
  simp [List.length_drop]; omega

theorem mem_chunks_ne_nil {n : Nat} :
    ∀ {l : List α}, ∀ b ∈ chunks n l, b ≠ [] := by
  intro l
  by_cases hn : 0 < n
  · by_cases hl : l = []
    · subst hl; cases n <;> simp [chunks, chunksF]
    · rw [chunks_eq hn hl]
      intro b hb
      rcases List.mem_cons.mp hb with rfl | hb'
      · intro hc
        rcases List.take_eq_nil_iff.mp hc with h | h
        · omega
        · exact hl h
      · exact mem_chunks_ne_nil b hb'
  · intro b hb
    interval_cases n
    cases l <;> simp [chunks, chunksF] at hb
termination_by l => l.length
decreasing_by
  have : 0 < l.length := List.length_pos.mpr hl
  simp [List.length_drop]; omega

/-- Pieces of `chunks` over a duplicate-free list are pairwise disjoint
(each entry index occurs in exactly one batch). -/
theorem chunks_pairwise_disjoint {n : Nat} (hn : 0 < n) {l : List α}
    (hl : l.Nodup) : (chunks n l).Pairwise List.Disjoint := by
  have : (chunks n l).flatten.Nodup := by
    rw [chunks_flatten hn]; exact hl
  exact (List.nodup_flatten.mp this).2

theorem mem_chunks_nodup {n : Nat} {l : List α} (hl : l.Nodup) :
    ∀ b ∈ chunks n l, b.Nodup :=
  fun b hb => (mem_chunks_sublist b hb).nodup hl

/-! ### Properties of `validIdx` -/

theorem validIdx_nodup (parsed : List ParsedSubtitle) :
    (validIdx parsed).Nodup :=
  (List.nodup_range _).filter _

theorem mem_validIdx {parsed : List ParsedSubtitle} {i : Nat} :
    i ∈ validIdx parsed ↔
      i < parsed.length ∧ isValid (parsed.getD i default) = true := by
  simp [validIdx, List.mem_filter, List.mem_range]

theorem mem_batch_mem_validIdx {parsed : List ParsedSubtitle}
    {b : List Nat} {i : Nat}
    (hb : b ∈ chunks BATCH_SIZE (validIdx parsed)) (hi : i ∈ b) :
    i ∈ validIdx parsed :=
  (mem_chunks_sublist b hb).subset hi

/-- The `m`-th element of a list is a member of `l.drop m`. -/
theorem getD_mem_drop {l : List (List Nat)} {m : Nat} (hm : m < l.length) :
    l.getD m [] ∈ l.drop m := by
  rw [List.getD_eq_getElem _ _ hm, ← List.getElem_cons_drop l m hm]
  exact List.mem_cons_self _ _

/-- Indices of the `m`-th batch are untouched by the batches before it. -/
theorem runBatches_take_getD (tc : List String → Except String (List String))
    {bs : List (List Nat)} (hpd : bs.Pairwise List.Disjoint) {m : Nat}
    (hm : m < bs.length) (st : List ParsedSubtitle) {i : Nat}
    (hi : i ∈ bs.getD m []) (d : ParsedSubtitle) :
    (runBatches tc st (bs.take m)).getD i d = st.getD i d := by
  refine runBatches_getD_not_mem tc _ st d fun b' hb' => ?_
  have hsplit : bs.take m ++ bs.drop m = bs := List.take_append_drop m bs
  have hpa := List.pairwise_append.mp (hsplit ▸ hpd)
  have hdisj : b'.Disjoint (bs.getD m []) :=
    hpa.2.2 b' hb' _ (getD_mem_drop hm)
  exact fun hmem => hdisj hmem hi

/-- Indices of the `m`-th batch are untouched by the batches after it. -/
theorem runBatches_drop_getD (tc : List String → Except String (List String))
    {bs : List (List Nat)} (hpd : bs.Pairwise List.Disjoint) {m : Nat}
    (hm : m < bs.length) (st : List ParsedSubtitle) {i : Nat}
    (hi : i ∈ bs.getD m []) (d : ParsedSubtitle) :
    (runBatches tc st (bs.drop (m + 1))).getD i d = st.getD i d := by
  refine runBatches_getD_not_mem tc _ st d fun b' hb' => ?_
  intro hmem
  obtain ⟨k, hk, hbk⟩ := List.mem_iff_getElem.mp hb'
  have hk' : m + 1 + k < bs.length := by
    have := hk; rw [List.length_drop] at this; omega
  have hbk' : bs[m + 1 + k] = b' := by
    rw [← hbk, List.getElem_drop]
  have hdisj : List.Disjoint bs[m] bs[m + 1 + k] :=
    List.pairwise_iff_getElem.mp hpd m (m + 1 + k) hm hk' (by omega)
  rw [hbk'] at hdisj
  exact hdisj (by rwa [List.getD_eq_getElem _ _ hm] at hi) hmem

/-! ### Claim theorems: pipeline -/

/-- C2: every index placed in any batch of the pipeline satisfies the
translatable filter: its entry is neither a header nor malformed, and its
trimmed text is nonempty.  Excluded entries therefore never contribute to
any `texts` argument of `translateBatch` (each call's argument is
`batchTexts` of a batch of the partition). -/
theorem C2_exclusion_invariant (parsed : List ParsedSubtitle) (b : List Nat)
    (hb : b ∈ chunks BATCH_SIZE (validIdx parsed)) (i : Nat) (hi : i ∈ b) :
    (parsed.getD i default).isHeader = false ∧
    (parsed.getD i default).isMalformed = false ∧
    jsTrim (parsed.getD i default).text ≠ "" := by
  have hv := (mem_validIdx.mp (mem_batch_mem_validIdx hb hi)).2
  simp only [isValid, Bool.and_eq_true, Bool.not_eq_true', decide_eq_true_eq] at hv
  obtain ⟨⟨h1, h2⟩, h3⟩ := hv
  refine ⟨h1, h2, fun hc => ?_⟩
  rw [hc] at h3
  simp at h3

theorem C2_exclusion_invariant_witness :
    ([0] ∈ chunks BATCH_SIZE (validIdx [{ text := "Hello" },
        { text := "  " }, { text := "x", isMalformed := true }]) ∧
      (0 : Nat) ∈ [0]) ∧
    (([{ text := "Hello" }, { text := "  " },
        { text := "x", isMalformed := true }].getD 0
          (default : ParsedSubtitle)).isHeader = false ∧
      ([{ text := "Hello" }, { text := "  " },
        { text := "x", isMalformed := true }].getD 0
          (default : ParsedSubtitle)).isMalformed = false ∧
      jsTrim ([{ text := "Hello" }, { text := "  " },
        { text := "x", isMalformed := true }].getD 0
          (default : ParsedSubtitle)).text ≠ "") :=
  ⟨⟨by decide, by decide⟩,
    C2_exclusion_invariant _ [0] (by decide) 0 (by decide)⟩

/-- C3: if `translateBatch` fails for the `m`-th batch (with any error),
then (1) the failing call leaves the array state exactly as it was
immediately before the call; (2) the whole pipeline equals the pipeline
that simply continues with the remaining batches from that state (failure
is absorbed at the batch boundary, no exception propagates); (3) at the
end of the run every entry of the failed batch still holds the text it
had immediately before the call, which (4) is its original text. -/
theorem C3_batch_fallback (parsed : List ParsedSubtitle)
    (tc : List String → Except String (List String)) (m : Nat) (e : String)
    (hm : m < (chunks BATCH_SIZE (validIdx parsed)).length)
    (hfail :
      tc (batchTexts
            (runBatches tc parsed ((chunks BATCH_SIZE (validIdx parsed)).take m))
            ((chunks BATCH_SIZE (validIdx parsed)).getD m [])) = .error e) :
    (processBatch tc
        (runBatches tc parsed ((chunks BATCH_SIZE (validIdx parsed)).take m))
        ((chunks BATCH_SIZE (validIdx parsed)).getD m []) =
      runBatches tc parsed ((chunks BATCH_SIZE (validIdx parsed)).take m)) ∧
    (runPipeline tc parsed =
      runBatches tc
        (runBatches tc parsed ((chunks BATCH_SIZE (validIdx parsed)).take m))
        ((chunks BATCH_SIZE (validIdx parsed)).drop (m + 1))) ∧
    (∀ i ∈ (chunks BATCH_SIZE (validIdx parsed)).getD m [],
      (runPipeline tc parsed).getD i default =
        (runBatches tc parsed
            ((chunks BATCH_SIZE (validIdx parsed)).take m)).getD i default) ∧
    (∀ i ∈ (chunks BATCH_SIZE (validIdx parsed)).getD m [],
      (runBatches tc parsed
          ((chunks BATCH_SIZE (validIdx parsed)).take m)).getD i default =
        parsed.getD i default) := by
  set bs := chunks BATCH_SIZE (validIdx parsed) with hbs
  have hpd : bs.Pairwise List.Disjoint :=
    chunks_pairwise_disjoint (by norm_num [BATCH_SIZE]) (validIdx_nodup parsed)
  have h1 : processBatch tc (runBatches tc parsed (bs.take m)) (bs.getD m []) =
      runBatches tc parsed (bs.take m) := by
    unfold processBatch
    rw [hfail]
  have hsplit : bs = bs.take m ++ bs.getD m [] :: bs.drop (m + 1) := by
    rw [List.getD_eq_getElem _ _ hm]
    conv_lhs => rw [← List.take_append_drop m bs]
    rw [← List.getElem_cons_drop bs m hm]
  have h2 : runPipeline tc parsed =
      runBatches tc (runBatches tc parsed (bs.take m)) (bs.drop (m + 1)) := by
    show runBatches tc parsed bs = _
    conv_lhs => rw [hsplit]
    show List.foldl (processBatch tc) parsed _ = _
    rw [List.foldl_append, List.foldl_cons]
    rw [show List.foldl (processBatch tc) parsed (bs.take m) =
        runBatches tc parsed (bs.take m) from rfl, h1]
    rfl
  refine ⟨h1, h2, fun i hi => ?_, fun i hi => ?_⟩
  · rw [h2]
    exact runBatches_drop_getD tc hpd hm _ hi default
  · exact runBatches_take_getD tc hpd hm _ hi default

theorem C3_batch_fallback_witness :
    (0 < (chunks BATCH_SIZE
        (validIdx [{ text := "Hello" : ParsedSubtitle }])).length ∧
      (fun _ : List String => (.error "boom" : Except String (List String)))
        (batchTexts
          (runBatches (fun _ => .error "boom")
            [{ text := "Hello" : ParsedSubtitle }]
            ((chunks BATCH_SIZE
              (validIdx [{ text := "Hello" : ParsedSubtitle }])).take 0))
          ((chunks BATCH_SIZE
            (validIdx [{ text := "Hello" : ParsedSubtitle }])).getD 0 [])) =
        .error "boom") ∧
    (∀ i ∈ (chunks BATCH_SIZE
        (validIdx [{ text := "Hello" : ParsedSubtitle }])).getD 0 [],
      (runBatches (fun _ => .error "boom")
          [{ text := "Hello" : ParsedSubtitle }]
          ((chunks BATCH_SIZE
            (validIdx [{ text := "Hello" : ParsedSubtitle }])).take 0)).getD
            i default =
        [{ text := "Hello" : ParsedSubtitle }].getD i default) :=
  ⟨⟨by decide, rfl⟩,
    (C3_batch_fallback [{ text := "Hello" }] (fun _ => .error "boom") 0 "boom"
      (by decide) rfl).2.2.2⟩

/-- C5: when `translateBatch` succeeds with list `ts`, the entry at batch
position `p` receives `ts[p]` positionally, except that an absent
(out of range, `getD` default `""`) or empty value leaves the original
text in place (`newText`); entries outside the batch are untouched; and
consequently no entry's text is ever overwritten with the empty string. -/
theorem C5_positional_assignment
    (tc : List String → Except String (List String))
    (st : List ParsedSubtitle) (batch : List Nat) (ts : List String)
    (hok : tc (batchTexts st batch) = .ok ts) (hnd : batch.Nodup)
    (hlt : ∀ i ∈ batch, i < st.length) :
    (∀ p, p < batch.length →
      ((processBatch tc st batch).getD (batch.getD p 0) default).text =
        newText ((st.getD (batch.getD p 0) default)).text (ts.getD p "")) ∧
    (∀ j, j ∉ batch →
      (processBatch tc st batch).getD j default = st.getD j default) ∧
    (∀ i ∈ batch, ((processBatch tc st batch).getD i default).text = "" →
      ((st.getD i default)).text = "") := by
  have hpos : ∀ p, p < batch.length →
      ((processBatch tc st batch).getD (batch.getD p 0) default).text =
        newText ((st.getD (batch.getD p 0) default)).text (ts.getD p "") := by
    intro p hp
    have hmem : batch.getD p 0 ∈ batch := by
      rw [List.getD_eq_getElem _ _ hp]
      exact List.getElem_mem _
    rw [processBatch_getD_pos tc st hok hnd hp (hlt _ hmem) default]
  refine ⟨hpos, fun j hj => processBatch_getD_not_mem tc st hj default,
    fun i hi hempty => ?_⟩
  obtain ⟨p, hp, hip⟩ := List.mem_iff_getElem.mp hi
  have hieq : batch.getD p 0 = i := by rw [List.getD_eq_getElem _ _ hp, hip]
  have := hpos p hp
  rw [hieq] at this
  rw [this] at hempty
  unfold newText at hempty
  split at hempty
  · exact hempty
  · exact absurd hempty (by assumption)

theorem C5_positional_assignment_witness :
    ((fun _ : List String => (.ok ["Salom", ""] : Except String (List String)))
        (batchTexts [{ text := "Hello" : ParsedSubtitle }, { text := "World" }]
          [0, 1]) = .ok ["Salom", ""] ∧
      ([0, 1] : List Nat).Nodup ∧
      (∀ i ∈ ([0, 1] : List Nat),
        i < ([{ text := "Hello" : ParsedSubtitle },
              { text := "World" }]).length)) ∧
    (∀ p, p < ([0, 1] : List Nat).length →
      ((processBatch (fun _ => .ok ["Salom", ""])
          [{ text := "Hello" : ParsedSubtitle }, { text := "World" }]
          [0, 1]).getD (([0, 1] : List Nat).getD p 0) default).text =
        newText (([{ text := "Hello" : ParsedSubtitle },
            { text := "World" }].getD (([0, 1] : List Nat).getD p 0)
              default)).text ((["Salom", ""] : List String).getD p "")) :=
  ⟨⟨rfl, by decide, by decide⟩,
    (C5_positional_assignment (fun _ => .ok ["Salom", ""])
      [{ text := "Hello" }, { text := "World" }] [0, 1] ["Salom", ""]
      rfl (by decide) (by decide)).1⟩

/-- C7 (counterexample): the claim that SDH stripping leaves the text of
`isHeader`/`isMalformed` entries completely unchanged is false on the
code: the `parsed.forEach` of App.tsx lines 110–114 guards only on the
truthiness of `p.text`, so a header entry whose text is
`"[Script Info]"` is stripped to `""`. -/
theorem C7_sdh_header_counterexample :
    ((applySDH [{ text := "[Script Info]", isHeader := true }]).getD 0
        default).text ≠
      (([{ text := "[Script Info]", isHeader := true }] :
          List ParsedSubtitle).getD 0 default).text := by
  decide

/-- C7 (amended): the SDH-stripping step applies the bracket/paren
replacement followed by a trim to the text of *every* entry with nonempty
text, regardless of its `isHeader`/`isMalformed` flags, and leaves
entries with empty text (and every other field of every entry)
unchanged. -/
theorem C7_sdh_strip_amended (parsed : List ParsedSubtitle) (i : Nat)
    (hi : i < parsed.length) :
    (applySDH parsed).length = parsed.length ∧
    (applySDH parsed).getD i default =
      (if (parsed.getD i default).text ≠ "" then
        { parsed.getD i default with
            text := jsTrim (sdhReplace (parsed.getD i default).text) }
       else parsed.getD i default) := by
  constructor
  · simp [applySDH]
  · have hlen : i < (applySDH parsed).length := by simpa [applySDH] using hi
    rw [List.getD_eq_getElem _ _ hlen, List.getD_eq_getElem _ _ hi]
    simp only [applySDH, List.getElem_map]

theorem C7_sdh_strip_amended_witness :
    0 < ([{ text := "na [x] zdorovie", isMalformed := true }] :
        List ParsedSubtitle).length ∧
    (applySDH [{ text := "na [x] zdorovie", isMalformed := true }]).getD 0
        default =
      (if (([{ text := "na [x] zdorovie", isMalformed := true }] :
            List ParsedSubtitle).getD 0 default).text ≠ "" then
        { ([{ text := "na [x] zdorovie", isMalformed := true }] :
            List ParsedSubtitle).getD 0 default with
            text := jsTrim (sdhReplace
              (([{ text := "na [x] zdorovie", isMalformed := true }] :
                List ParsedSubtitle).getD 0 default).text) }
       else ([{ text := "na [x] zdorovie", isMalformed := true }] :
          List ParsedSubtitle).getD 0 default) :=
  ⟨by decide,
    (C7_sdh_strip_amended [{ text := "na [x] zdorovie", isMalformed := true }]
      0 (by decide)).2⟩

/-- C10: SDH stripping happens before the translatable filter is
computed, so an entry whose text consists only of bracketed or
parenthesised annotations plus whitespace (its stripped, trimmed text is
empty) (1) has empty text after the stripping step, (2) is excluded from
`validSubtitles` and hence (3) from every batch sent to `translateBatch`,
and (4) still has empty text in the array handed to reconstruction after
the whole pipeline. -/
theorem C10_stripped_empty_excluded (parsed : List ParsedSubtitle)
    (tc : List String → Except String (List String)) (i : Nat)
    (hi : i < parsed.length)
    (hne : (parsed.getD i default).text ≠ "")
    (hstrip : jsTrim (sdhReplace (parsed.getD i default).text) = "") :
    ((applySDH parsed).getD i default).text = "" ∧
    i ∉ validIdx (applySDH parsed) ∧
    (∀ b ∈ chunks BATCH_SIZE (validIdx (applySDH parsed)), i ∉ b) ∧
    ((runPipeline tc (applySDH parsed)).getD i default).text = "" := by
  have htext : ((applySDH parsed).getD i default).text = "" := by
    rw [(C7_sdh_strip_amended parsed i hi).2, if_pos hne]
    exact hstrip
  have hnotvalid : i ∉ validIdx (applySDH parsed) := by
    intro hmem
    have hv := (mem_validIdx.mp hmem).2
    simp only [isValid, htext, Bool.and_eq_true, decide_eq_true_eq] at hv
    have hemp : jsTrim "" = "" := by decide
    rw [hemp] at hv
    simp at hv
  have hnob : ∀ b ∈ chunks BATCH_SIZE (validIdx (applySDH parsed)), i ∉ b :=
    fun b hb hib => hnotvalid (mem_batch_mem_validIdx hb hib)
  refine ⟨htext, hnotvalid, hnob, ?_⟩
  show ((runBatches tc (applySDH parsed)
      (chunks BATCH_SIZE (validIdx (applySDH parsed)))).getD i default).text = ""
  rw [runBatches_getD_not_mem tc _ _ default hnob]
  exact htext

theorem C10_stripped_empty_excluded_witness :
    (0 < ([{ text := "[music] (sigh)" }, { text := "Hello" }] :
        List ParsedSubtitle).length ∧
      (([{ text := "[music] (sigh)" }, { text := "Hello" }] :
          List ParsedSubtitle).getD 0 default).text ≠ "" ∧
      jsTrim (sdhReplace
        (([{ text := "[music] (sigh)" }, { text := "Hello" }] :
          List ParsedSubtitle).getD 0 default).text) = "") ∧
    (((applySDH [{ text := "[music] (sigh)" }, { text := "Hello" }]).getD 0
        default).text = "" ∧
      0 ∉ validIdx (applySDH
        [{ text := "[music] (sigh)" }, { text := "Hello" }]) ∧
      (∀ b ∈ chunks BATCH_SIZE (validIdx (applySDH
          [{ text := "[music] (sigh)" }, { text := "Hello" }])), 0 ∉ b) ∧
      ((runPipeline (fun ts => .ok ts)
          (applySDH [{ text := "[music] (sigh)" }, { text := "Hello" }])).getD
            0 default).text = "") :=
  ⟨⟨by decide, by decide, by decide⟩,
    C10_stripped_empty_excluded
      [{ text := "[music] (sigh)" }, { text := "Hello" }]
      (fun ts => .ok ts) 0 (by decide) (by decide) (by decide)⟩

/-! ### Dispatch/settle event model for the concurrency windows

The loop at App.tsx lines 154–158 dispatches one window of at most
`CONCURRENT_LIMIT` batches (each `processBatch` runs synchronously up to
its `await translateBatch`, so all dispatches of a window happen before
any of its settlements), waits for all of them to settle
(`await Promise.all`, in an arbitrary completion order), and only then
dispatches the next window.  Batches are identified by their index in the
batch list. -/

inductive Event where
  | dispatch (b : Nat)
  | settle (b : Nat)
deriving DecidableEq, Repr

/-- The event trace of a run: one `(window, settleOrder)` pair per window,
where `settleOrder` is the (arbitrary) order in which that window's calls
settled. -/
def pipelineTrace : List (List Nat × List Nat) → List Event
  | [] => []
  | (w, s) :: rest =>
      w.map Event.dispatch ++ s.map Event.settle ++ pipelineTrace rest

theorem range'_take (s n k : Nat) :
    (List.range' s n).take k = List.range' s (min k n) := by
  rcases Nat.le_total k n with h | h
  · have hsplit : List.range' s n =
        List.range' s k ++ List.range' (s + k) (n - k) := by
      rw [List.range'_append_1]
      congr 1
      omega
    rw [hsplit, List.take_left' (by simp)]
    congr 1
    omega
  · rw [List.take_of_length_le (by simp [h])]
    congr 1
    omega

theorem range'_drop (s n k : Nat) :
    (List.range' s n).drop k = List.range' (s + k) (n - k) := by
  rcases Nat.le_total k n with h | h
  · have hsplit : List.range' s n =
        List.range' s k ++ List.range' (s + k) (n - k) := by
      rw [List.range'_append_1]
      congr 1
      omega
    rw [hsplit, List.drop_left' (by simp)]
  · rw [List.drop_eq_nil_of_le (by simp [h])]
    have : n - k = 0 := by omega
    rw [this]
    rfl

/-- Decomposition of an append at a distinguished element. -/
theorem append_cons_decomp {l1 l2 t1 t2 : List α} {x : α}
    (h : l1 ++ l2 = t1 ++ x :: t2) :
    (∃ u, l1 = t1 ++ x :: u) ∨
    (∃ t1', t1 = l1 ++ t1' ∧ l2 = t1' ++ x :: t2) := by
  induction l1 generalizing t1 with
  | nil => exact Or.inr ⟨t1, rfl, h⟩
  | cons a l1' ih =>
      cases t1 with
      | nil =>
          rw [List.cons_append, List.nil_append] at h
          injection h with h1 h2
          exact Or.inl ⟨l1', by rw [List.nil_append, h1]⟩
      | cons c t1'' =>
          rw [List.cons_append, List.cons_append] at h
          injection h with h1 h2
          rcases ih h2 with ⟨u, hu⟩ | ⟨t1', ht1, hl2⟩
          · exact Or.inl ⟨u, by rw [List.cons_append, h1, hu]⟩
          · exact Or.inr ⟨t1', by rw [List.cons_append, h1, ht1], hl2⟩

/-- Window discipline over any suffix of the batch-index sequence
(batches `range' s m`, window size `n`, `n ∣ s`): in any run trace, a
batch of a strictly earlier window settles strictly before any dispatch
of a later window. -/
theorem pipelineTrace_window_order {n : Nat} (hn : 0 < n) :
    ∀ (m s : Nat) (pairs : List (List Nat × List Nat)) (t1 t2 : List Event)
      (b b' : Nat), s % n = 0 →
      pairs.map Prod.fst = chunks n (List.range' s m) →
      (∀ p ∈ pairs, p.2.Perm p.1) →
      pipelineTrace pairs = t1 ++ Event.dispatch b' :: t2 →
      b ∈ List.range' s m → b / n < b' / n →
      Event.settle b ∈ t1 := by
  intro m s pairs t1 t2 b b' hsmod hw hperm htr hb hdiv
  by_cases hm : m = 0
  · subst hm
    simp [chunks, chunksF] at hw
    subst hw
    simp [pipelineTrace] at htr
  · have hm0 : 0 < m := Nat.pos_of_ne_zero hm
    have hrne : List.range' s m ≠ [] := by simp [hm]
    rw [chunks_eq hn hrne] at hw
    cases pairs with
    | nil => simp at hw
    | cons p rest =>
        obtain ⟨w, σ⟩ := p
        rw [List.map_cons] at hw
        injection hw with hw1 hw2
        rw [range'_take] at hw1
        rw [range'_drop] at hw2
        have hw1' : w = List.range' s (min n m) := hw1
        have hσ : σ.Perm w := hperm (w, σ) (List.mem_cons_self _ _)
        rw [show pipelineTrace ((w, σ) :: rest) =
            w.map Event.dispatch ++
              (σ.map Event.settle ++ pipelineTrace rest) from by
          simp [pipelineTrace]] at htr
        have hbge : s ≤ b := (List.mem_range'_1.mp hb).1
        rcases append_cons_decomp htr with ⟨u, hu⟩ | ⟨t1', ht1, h2⟩
        · exfalso
          have hmem : Event.dispatch b' ∈ w.map Event.dispatch := by
            rw [hu]
            simp
          have hb'w : b' ∈ w := by simpa using hmem
          rw [hw1'] at hb'w
          have hb'r := List.mem_range'_1.mp hb'w
          obtain ⟨q, hq⟩ := Nat.dvd_of_mod_eq_zero hsmod
          have hb'lt : b' < s + n := by
            have hmn : min n m ≤ n := Nat.min_le_left n m
            have := hb'r.2
            omega
          have hq1 : q * n ≤ b' := by
            have : q * n = s := by rw [Nat.mul_comm]; exact hq.symm
            omega
          have hdivb' : b' / n = q := by
            refine Nat.div_eq_of_lt_le hq1 ?_
            have hd : (q + 1) * n = q * n + n := by ring
            have hqn : q * n = s := by rw [Nat.mul_comm]; exact hq.symm
            omega
          have hs : s / n = q := by rw [hq, Nat.mul_div_cancel_left q hn]
          have h3 : s / n ≤ b / n := Nat.div_le_div_right hbge
          rw [hdivb'] at hdiv
          rw [hs] at h3
          omega
        · rcases append_cons_decomp h2 with ⟨u, hu⟩ | ⟨t1'', ht1'', h3⟩
          · exfalso
            have hmem : Event.dispatch b' ∈ σ.map Event.settle := by
              rw [hu]
              simp
            simp at hmem
          · by_cases hbw : b < s + n
            · have hbmem : b ∈ w := by
                rw [hw1']
                have := List.mem_range'_1.mp hb
                simp only [List.mem_range'_1]
                omega
              have hset : Event.settle b ∈ σ.map Event.settle :=
                List.mem_map.mpr ⟨b, hσ.mem_iff.mpr hbmem, rfl⟩
              rw [ht1, ht1'']
              simp [hset]
            · have hbmem : b ∈ List.range' (s + n) (m - n) := by
                have := List.mem_range'_1.mp hb
                simp only [List.mem_range'_1]
                omega
              have hmod : (s + n) % n = 0 := by
                rw [Nat.add_mod, hsmod, Nat.mod_self]
                simp
              have hrec := pipelineTrace_window_order hn (m - n) (s + n)
                rest t1'' t2 b b' hmod hw2
                (fun p hp => hperm p (List.mem_cons_of_mem _ hp))
                h3 hbmem hdiv
              rw [ht1, ht1'']
              simp [hrec]
termination_by m _ _ _ _ _ _ => m
decreasing_by omega

/-- C4: the translatable subset is partitioned by the slicing loop into
contiguous, order-preserving batches of at most `BATCH_SIZE = 100`
entries (their concatenation, in order, is exactly `validSubtitles`, and
no batch is empty); the batch list is grouped into windows of at most
`CONCURRENT_LIMIT = 5` batches; and in every admissible event trace of
the run (arbitrary settle order inside each window), every batch of an
earlier window settles before any batch of a later window is dispatched:
whenever the trace decomposes at `dispatch b'`, the settle of every batch
`b` of any strictly earlier window already lies in the prefix. -/
theorem C4_batch_partition_and_windows (parsed : List ParsedSubtitle)
    (B : Nat) (pairs : List (List Nat × List Nat)) (t1 t2 : List Event)
    (b b' : Nat)
    (hB : B = (chunks BATCH_SIZE (validIdx parsed)).length)
    (hw : pairs.map Prod.fst = chunks CONCURRENT_LIMIT (List.range B))
    (hperm : ∀ p ∈ pairs, p.2.Perm p.1)
    (htr : pipelineTrace pairs = t1 ++ Event.dispatch b' :: t2)
    (hb : b < B) (hdiv : b / CONCURRENT_LIMIT < b' / CONCURRENT_LIMIT) :
    (chunks BATCH_SIZE (validIdx parsed)).flatten = validIdx parsed ∧
    (∀ bb ∈ chunks BATCH_SIZE (validIdx parsed),
      bb.length ≤ BATCH_SIZE ∧ bb ≠ []) ∧
    (chunks CONCURRENT_LIMIT (chunks BATCH_SIZE (validIdx parsed))).flatten =
      chunks BATCH_SIZE (validIdx parsed) ∧
    (∀ w ∈ chunks CONCURRENT_LIMIT (chunks BATCH_SIZE (validIdx parsed)),
      w.length ≤ CONCURRENT_LIMIT) ∧
    Event.settle b ∈ t1 := by
  refine ⟨chunks_flatten (by norm_num [BATCH_SIZE]) _,
    fun bb hbb => ⟨mem_chunks_length_le bb hbb, mem_chunks_ne_nil bb hbb⟩,
    chunks_flatten (by norm_num [CONCURRENT_LIMIT]) _,
    fun w hw' => mem_chunks_length_le w hw', ?_⟩
  have h5 : (0 : Nat) < CONCURRENT_LIMIT := by norm_num [CONCURRENT_LIMIT]
  refine pipelineTrace_window_order h5 B 0 pairs t1 t2 b b'
    (by simp) ?_ hperm htr ?_ hdiv
  · rw [← List.range_eq_range']
    exact hw
  · simp only [List.mem_range'_1]
    omega

set_option maxRecDepth 100000 in
theorem C4_batch_partition_and_windows_witness :
    ((6 : Nat) = (chunks BATCH_SIZE
        (validIdx (List.replicate 501
          ({ text := "a" } : ParsedSubtitle)))).length ∧
      ([([0, 1, 2, 3, 4], [4, 3, 2, 1, 0]), ([5], [5])] :
          List (List Nat × List Nat)).map Prod.fst =
        chunks CONCURRENT_LIMIT (List.range 6) ∧
      pipelineTrace [([0, 1, 2, 3, 4], [4, 3, 2, 1, 0]), ([5], [5])] =
        [Event.dispatch 0, Event.dispatch 1, Event.dispatch 2,
          Event.dispatch 3, Event.dispatch 4, Event.settle 4,
          Event.settle 3, Event.settle 2, Event.settle 1, Event.settle 0] ++
          Event.dispatch 5 :: [Event.settle 5] ∧
      (2 : Nat) < 6 ∧
      (2 : Nat) / CONCURRENT_LIMIT < 5 / CONCURRENT_LIMIT) ∧
    Event.settle 2 ∈
      [Event.dispatch 0, Event.dispatch 1, Event.dispatch 2,
        Event.dispatch 3, Event.dispatch 4, Event.settle 4,
        Event.settle 3, Event.settle 2, Event.settle 1, Event.settle 0] :=
  ⟨⟨by decide, by decide, by decide, by decide, by decide⟩,
    (C4_batch_partition_and_windows
      (List.replicate 501 ({ text := "a" } : ParsedSubtitle)) 6
      [([0, 1, 2, 3, 4], [4, 3, 2, 1, 0]), ([5], [5])]
      [Event.dispatch 0, Event.dispatch 1, Event.dispatch 2,
        Event.dispatch 3, Event.dispatch 4, Event.settle 4,
        Event.settle 3, Event.settle 2, Event.settle 1, Event.settle 0]
      [Event.settle 5] 2 5 (by decide) (by decide)
      (by decide) (by decide) (by decide) (by decide)).2.2.2.2⟩

/-! ### Progress accounting (App.tsx lines 89, 131, 143–150, 182)

After each batch settles, `completedSubtitlesCount` grows by the batch
size and `setProgress(min(((i + completed/total) / totalFiles) * 100, 99))`
is invoked.  The values reported for one file are therefore determined by
the file's index, the total file count, the file's translatable count,
and the sequence of batch sizes in settle order (an arbitrary permutation
of the batch-size list, by the window model).  A run reports `0` once at
the start (line 89), then the per-file sequences in file order, then
`100` once after the loop (line 182). -/

/-- Running values of `completedSubtitlesCount` after each settle. -/
def psums (acc : Nat) : List Nat → List Nat
  | [] => []
  | n :: rest => (acc + n) :: psums (acc + n) rest

/-- `Math.min(((i + completed / total) / totalFiles) * 100, 99)`
(App.tsx lines 146–149). -/
def progressValue (i totalFiles total c : Nat) : ℚ :=
  min ((((i : ℚ) + (c : ℚ) / (total : ℚ)) / (totalFiles : ℚ)) * 100) 99

/-- The progress values one file reports, given the settle-order batch
sizes. -/
def fileProgressValues (i totalFiles : Nat) (parsed : List ParsedSubtitle)
    (sizes : List Nat) : List ℚ :=
  (psums 0 sizes).map (progressValue i totalFiles (validIdx parsed).length)

/-- The concatenation of all files' progress values, in file order. -/
def runProgressValues (totalFiles : Nat) :
    Nat → List (List ParsedSubtitle × List Nat) → List ℚ
  | _, [] => []
  | i, (parsed, sizes) :: rest =>
      fileProgressValues i totalFiles parsed sizes ++
        runProgressValues totalFiles (i + 1) rest

/-- The full sequence of values passed to `setProgress` during a run. -/
def progressTrace (specs : List (List ParsedSubtitle × List Nat)) : List ℚ :=
  0 :: runProgressValues specs.length 0 specs ++ [100]

/-- The per-file hypothesis: a file either never reaches the batch loop
(it failed at read or parse: no progress values) or settles all its
batches, in some order. -/
def FileSpecOk (sp : List ParsedSubtitle × List Nat) : Prop :=
  sp.2 = [] ∨ sp.2.Perm ((chunks BATCH_SIZE (validIdx sp.1)).map List.length)

theorem psums_ge (acc : Nat) :
    ∀ (l : List Nat), ∀ x ∈ psums acc l, acc ≤ x
  | n :: rest, x, hx => by
      rw [psums] at hx
      rcases List.mem_cons.mp hx with rfl | hx'
      · omega
      · have := psums_ge (acc + n) rest x hx'
        omega

theorem psums_le (acc : Nat) :
    ∀ (l : List Nat), ∀ x ∈ psums acc l, x ≤ acc + l.sum
  | n :: rest, x, hx => by
      rw [psums] at hx
      rcases List.mem_cons.mp hx with rfl | hx'
      · simp
      · have := psums_le (acc + n) rest x hx'
        simp only [List.sum_cons]
        omega

theorem psums_sorted (acc : Nat) :
    ∀ (l : List Nat), (psums acc l).Sorted (· ≤ ·)
  | [] => List.sorted_nil
  | n :: rest => by
      rw [psums]
      refine List.Pairwise.cons ?_ (psums_sorted (acc + n) rest)
      exact fun x hx => psums_ge (acc + n) rest x hx

theorem progressValue_nonneg (i tF t c : Nat) :
    0 ≤ progressValue i tF t c := by
  unfold progressValue
  refine le_min ?_ (by norm_num)
  positivity

theorem progressValue_le_99 (i tF t c : Nat) :
    progressValue i tF t c ≤ 99 :=
  min_le_right _ _

theorem progressValue_mono (i tF t : Nat) {c c' : Nat} (h : c ≤ c') :
    progressValue i tF t c ≤ progressValue i tF t c' := by
  unfold progressValue
  refine min_le_min ?_ le_rfl
  rcases Nat.eq_zero_or_pos t with rfl | ht
  · simp
  · have ht' : (0 : ℚ) < (t : ℚ) := by exact_mod_cast ht
    have hcc : (c : ℚ) ≤ (c' : ℚ) := by exact_mod_cast h
    gcongr

theorem progressValue_le_upper (i tF t : Nat) {c : Nat} (hc : c ≤ t)
    (ht : 0 < t) :
    progressValue i tF t c ≤ min ((((i : ℚ) + 1) / (tF : ℚ)) * 100) 99 := by
  unfold progressValue
  refine min_le_min ?_ le_rfl
  have ht' : (0 : ℚ) < (t : ℚ) := by exact_mod_cast ht
  have hdiv : (c : ℚ) / (t : ℚ) ≤ 1 := by
    rw [div_le_one ht']
    exact_mod_cast hc
  gcongr

theorem progressValue_ge_lower (i tF t c : Nat) :
    min (((i : ℚ) / (tF : ℚ)) * 100) 99 ≤ progressValue i tF t c := by
  unfold progressValue
  refine min_le_min ?_ le_rfl
  have h0 : (0 : ℚ) ≤ (c : ℚ) / (t : ℚ) := by positivity
  have hstep : ((i : ℚ) / (tF : ℚ)) * 100 ≤
      (((i : ℚ) + (c : ℚ) / (t : ℚ)) / (tF : ℚ)) * 100 := by
    gcongr
    linarith
  exact hstep

theorem lower_step (i i' tF : Nat) (h : i + 1 ≤ i') :
    min ((((i : ℚ) + 1) / (tF : ℚ)) * 100) 99 ≤
      min (((i' : ℚ) / (tF : ℚ)) * 100) 99 := by
  refine min_le_min ?_ le_rfl
  have : ((i : ℚ) + 1) ≤ (i' : ℚ) := by exact_mod_cast h
  gcongr

theorem min_div_mono {a b : ℚ} (tF : Nat) (h : a ≤ b) :
    min (a / (tF : ℚ) * 100) 99 ≤ min (b / (tF : ℚ) * 100) 99 := by
  refine min_le_min ?_ le_rfl
  gcongr

theorem fileProgressValues_sorted (i tF : Nat)
    (parsed : List ParsedSubtitle) (sizes : List Nat) :
    (fileProgressValues i tF parsed sizes).Sorted (· ≤ ·) :=
  (psums_sorted 0 sizes).map _ (fun _ _ hab => progressValue_mono i tF _ hab)

theorem fileProgressValues_bounds (i tF : Nat)
    (parsed : List ParsedSubtitle) (sizes : List Nat)
    (hok : FileSpecOk (parsed, sizes)) :
    ∀ v ∈ fileProgressValues i tF parsed sizes,
      min (((i : ℚ) / (tF : ℚ)) * 100) 99 ≤ v ∧
      v ≤ min ((((i : ℚ) + 1) / (tF : ℚ)) * 100) 99 ∧
      0 ≤ v ∧ v ≤ 99 ∧
      ∃ c, c ≤ (validIdx parsed).length ∧ 0 < (validIdx parsed).length ∧
        v = progressValue i tF (validIdx parsed).length c := by
  intro v hv
  obtain ⟨c, hc, rfl⟩ := List.mem_map.mp hv
  have hsne : sizes ≠ [] := by
    rintro rfl
    simp [psums] at hc
  rcases hok with h | hperm
  · exact absurd h hsne
  · have hsum : sizes.sum = (validIdx parsed).length := by
      have h1 := hperm.sum_eq
      rw [h1]
      rw [← List.length_flatten,
        chunks_flatten (by norm_num [BATCH_SIZE]) (validIdx parsed)]
    have hcle : c ≤ (validIdx parsed).length := by
      have := psums_le 0 sizes c hc
      omega
    have htpos : 0 < (validIdx parsed).length := by
      by_contra h0
      have hvnil : validIdx parsed = [] := by
        cases hvi : validIdx parsed with
        | nil => rfl
        | cons a as => rw [hvi] at h0; simp at h0
      rw [hvnil] at hperm
      have hch : chunks BATCH_SIZE ([] : List Nat) = [] := rfl
      rw [hch] at hperm
      simp at hperm
      exact hsne hperm
    exact ⟨progressValue_ge_lower i tF _ c,
      progressValue_le_upper i tF _ hcle htpos,
      progressValue_nonneg i tF _ c, progressValue_le_99 i tF _ c,
      c, hcle, htpos, rfl⟩

theorem runProgressValues_props (tF : Nat) :
    ∀ (specs : List (List ParsedSubtitle × List Nat)) (i : Nat),
      (∀ sp ∈ specs, FileSpecOk sp) → i + specs.length = tF →
      (runProgressValues tF i specs).Sorted (· ≤ ·) ∧
      (∀ v ∈ runProgressValues tF i specs,
        min (((i : ℚ) / (tF : ℚ)) * 100) 99 ≤ v ∧ 0 ≤ v ∧ v ≤ 99 ∧
        ∃ j c total, j < tF ∧ c ≤ total ∧ 0 < total ∧
          v = progressValue j tF total c)
  | [], i, _, _ => ⟨List.sorted_nil, by simp [runProgressValues]⟩
  | (parsed, sizes) :: rest, i, hok, hlen => by
      have hokh : FileSpecOk (parsed, sizes) := hok _ (List.mem_cons_self _ _)
      have ihres := runProgressValues_props tF rest (i + 1)
        (fun sp hsp => hok sp (List.mem_cons_of_mem _ hsp))
        (by simp only [List.length_cons] at hlen; omega)
      have hitF : i < tF := by
        simp only [List.length_cons] at hlen
        omega
      have hcast : (((i : Nat) + 1 : Nat) : ℚ) = (i : ℚ) + 1 := by push_cast; ring
      rw [runProgressValues]
      constructor
      · refine List.pairwise_append.mpr
          ⟨fileProgressValues_sorted i tF parsed sizes, ihres.1, ?_⟩
        intro x hx y hy
        have hxb := fileProgressValues_bounds i tF parsed sizes hokh x hx
        have hyb := (ihres.2 y hy).1
        rw [hcast] at hyb
        exact le_trans hxb.2.1 hyb
      · intro v hv
        rcases List.mem_append.mp hv with hvl | hvr
        · have hb := fileProgressValues_bounds i tF parsed sizes hokh v hvl
          obtain ⟨c, hc1, hc2, hveq⟩ := hb.2.2.2.2
          exact ⟨hb.1, hb.2.2.1, hb.2.2.2.1,
            i, c, (validIdx parsed).length, hitF, hc1, hc2, hveq⟩
        · have hb := ihres.2 v hvr
          refine ⟨?_, hb.2.1, hb.2.2.1, hb.2.2.2⟩
          refine le_trans (min_div_mono tF ?_) hb.1
          push_cast
          linarith

/-- C6: during a run, the values passed to the progress callback are, in
order, the initial `0`, then per file and per settled batch the value
`progressValue fileIndex totalFiles totalTranslatable completed`
(`min(((i + completed/total)/totalFiles)*100, 99)` exactly as in the
code), and the final `100`.  The whole sequence is monotonically
non-decreasing, every value before the final one lies in `[0, 99]`
(hence is `< 100`), every reported mid-run value is of that exact
capped-formula shape, and `100` is the last value, emitted only after
every file has been processed. -/
theorem C6_progress_accounting (specs : List (List ParsedSubtitle × List Nat))
    (hne : specs ≠ []) (hok : ∀ sp ∈ specs, FileSpecOk sp) :
    (progressTrace specs).Sorted (· ≤ ·) ∧
    (∀ v ∈ runProgressValues specs.length 0 specs, 0 ≤ v ∧ v ≤ 99 ∧
      ∃ j c total, j < specs.length ∧ c ≤ total ∧ 0 < total ∧
        v = progressValue j specs.length total c) ∧
    (progressTrace specs).getLast? = some 100 ∧
    (∀ v ∈ (0 : ℚ) :: runProgressValues specs.length 0 specs, v < 100) := by
  obtain ⟨hsorted, hvals⟩ :=
    runProgressValues_props specs.length specs 0 hok (by simp)
  refine ⟨?_, ?_, ?_, ?_⟩
  · show List.Pairwise _
      ((0 : ℚ) :: (runProgressValues specs.length 0 specs ++ [100]))
    refine List.Pairwise.cons ?_ ?_
    · intro y hy
      rcases List.mem_append.mp hy with h | h
      · exact (hvals y h).2.1
      · simp only [List.mem_singleton] at h
        subst h
        norm_num
    · refine List.pairwise_append.mpr ⟨hsorted, List.pairwise_singleton _ _, ?_⟩
      intro x hx y hy
      simp only [List.mem_singleton] at hy
      subst hy
      calc x ≤ 99 := (hvals x hx).2.2.1
        _ ≤ 100 := by norm_num
  · intro v hv
    exact ⟨(hvals v hv).2.1, (hvals v hv).2.2.1, (hvals v hv).2.2.2⟩
  · show (((0 : ℚ) :: runProgressValues specs.length 0 specs) ++
      [(100 : ℚ)]).getLast? = some (100 : ℚ)
    rw [List.getLast?_concat]
  · intro v hv
    rcases List.mem_cons.mp hv with rfl | h
    · norm_num
    · calc v ≤ 99 := (hvals v h).2.2.1
        _ < 100 := by norm_num

theorem C6_progress_accounting_witness :
    (([([{ text := "Hello" }], [1])] :
        List (List ParsedSubtitle × List Nat)) ≠ [] ∧
      FileSpecOk ([{ text := "Hello" : ParsedSubtitle }], [1])) ∧
    ((progressTrace [([{ text := "Hello" }], [1])]).Sorted (· ≤ ·) ∧
      (∀ v ∈ runProgressValues
          ([([{ text := "Hello" }], [1])] :
            List (List ParsedSubtitle × List Nat)).length 0
          [([{ text := "Hello" }], [1])], 0 ≤ v ∧ v ≤ 99 ∧
        ∃ j c total,
          j < ([([{ text := "Hello" }], [1])] :
            List (List ParsedSubtitle × List Nat)).length ∧
          c ≤ total ∧ 0 < total ∧
          v = progressValue j
            ([([{ text := "Hello" }], [1])] :
              List (List ParsedSubtitle × List Nat)).length total c) ∧
      (progressTrace [([{ text := "Hello" }], [1])]).getLast? = some 100 ∧
      (∀ v ∈ (0 : ℚ) :: runProgressValues
          ([([{ text := "Hello" }], [1])] :
            List (List ParsedSubtitle × List Nat)).length 0
          [([{ text := "Hello" }], [1])], v < 100)) :=
  ⟨⟨by decide, Or.inr (by decide)⟩,
    C6_progress_accounting [([{ text := "Hello" }], [1])] (by decide)
      (fun sp hsp => by
        simp only [List.mem_singleton] at hsp
        subst hsp
        exact Or.inr (by decide))⟩

/-! ### Orchestrator (`handleStartProcessing`, App.tsx lines 80–183)

The external calls (`readFileAsText`, `parseSubtitles`,
`reconstructSubtitles` from `services/subtitleUtils`, `translateBatch`
from `services/geminiService`) are oracles collected in `Env`; a fallible
call is an `Except` value, `.error` standing for a thrown exception whose
`message` is the carried string.  Files are processed by a sequential
loop; each loop body reads the file item from the snapshot captured at
the start of the run and updates the file list at that item's position
(ids are unique). -/

/-- `src/types.ts`: `FileItem`; the opaque browser `File` object is
represented by the file's name (`file.name` is its only use in the
processing path). -/
structure FileItem where
  id : String
  name : String
  status : ProcessingStatus
  originalText : String
  translatedText : Option String
  error : Option String
  wordCount : Nat
deriving DecidableEq, Repr

instance : Inhabited FileItem :=
  ⟨⟨"", "", .pending, "", none, none, 0⟩⟩

/-- `src/types.ts`: `TranslationHistoryItem` (`from`/`to` renamed, `from`
is reserved in Lean). -/
structure TranslationHistoryItem where
  id : String
  filename : String
  fromLang : String
  toLang : String
  date : String
deriving DecidableEq, Repr

/-- `src/types.ts`: enum `AppStep`. -/
inductive AppStep where
  | upload | settings | results
deriving DecidableEq, Repr

/-- The external collaborators of the orchestrator. -/
structure Env where
  readFileAsText : Nat → Except String String
  parseSubtitles : String → Except String (List ParsedSubtitle)
  reconstructSubtitles : List ParsedSubtitle → String → Except String String
  translateBatch : List String → Except String (List String)

/-- JavaScript `finalText.split(/\s+/)` on the character list: maximal
whitespace runs separate the pieces, and leading/trailing runs contribute
empty pieces (so `"".split` is `[""]`). -/
def splitWS : List Char → List (List Char)
  | [] => [[]]
  | c :: rest =>
      if isWS c then [] :: splitWS (rest.dropWhile isWS)
      else
        match splitWS rest with
        | [] => [[c]]
        | t :: ts => (c :: t) :: ts
termination_by l => l.length
decreasing_by
  · simp
    exact Nat.lt_succ_of_le ((List.dropWhile_sublist isWS).length_le)
  · simp

/-- `finalText.split(/\s+/).length` (App.tsx line 169). -/
def wordCount (s : String) : Nat :=
  (splitWS s.toList).length

/-- The `try`-block of one iteration of the file loop (App.tsx lines
101–178), as a function from the snapshot file item to its final record:
read, parse, optionally strip SDH, run the pipeline, reconstruct; the
first failing step short-circuits to the `catch` update
`{ ...f, status: 'error', error: e.message }`. -/
def processOneFile (env : Env) (removeSDH : Bool) (i : Nat)
    (fi : FileItem) : FileItem :=
  match env.readFileAsText i with
  | .error e => { fi with status := .error, error := some e }
  | .ok text =>
    match env.parseSubtitles text with
    | .error e => { fi with status := .error, error := some e }
    | .ok parsed0 =>
      let parsed1 := if removeSDH then applySDH parsed0 else parsed0
      let final := runPipeline env.translateBatch parsed1
      match env.reconstructSubtitles final fi.name with
      | .error e => { fi with status := .error, error := some e }
      | .ok finalText =>
          { fi with
            status := .done
            originalText := text
            translatedText := some finalText
            wordCount := wordCount finalText }

/-- The sequential file loop (App.tsx lines 94–179): for `i` from `0`,
replace the `i`-th file record by the outcome of processing the `i`-th
snapshot item.  No outcome aborts the loop. -/
def runFiles (env : Env) (removeSDH : Bool) (files : List FileItem) :
    List FileItem :=
  (List.range files.length).foldl
    (fun st i => st.set i (processOneFile env removeSDH i (files.getD i default)))
    files

/-- The message of the first failing step (read, parse or reconstruct)
of one file, if any. -/
def failsAt (env : Env) (removeSDH : Bool) (i : Nat) (fi : FileItem) :
    Option String :=
  match env.readFileAsText i with
  | .error e => some e
  | .ok text =>
    match env.parseSubtitles text with
    | .error e => some e
    | .ok parsed0 =>
      let parsed1 := if removeSDH then applySDH parsed0 else parsed0
      match env.reconstructSubtitles (runPipeline env.translateBatch parsed1)
          fi.name with
      | .error e => some e
      | .ok _ => none

theorem processOneFile_of_failsAt {env : Env} {removeSDH : Bool} {i : Nat}
    {fi : FileItem} {e : String}
    (h : failsAt env removeSDH i fi = some e) :
    processOneFile env removeSDH i fi =
      { fi with status := .error, error := some e } := by
  unfold failsAt at h
  unfold processOneFile
  cases hr : env.readFileAsText i with
  | error e' =>
      rw [hr] at h
      dsimp only at h ⊢
      cases h
      rfl
  | ok text =>
      rw [hr] at h
      dsimp only at h ⊢
      cases hp : env.parseSubtitles text with
      | error e' =>
          rw [hp] at h
          dsimp only at h ⊢
          cases h
          rfl
      | ok parsed0 =>
          rw [hp] at h
          dsimp only at h ⊢
          cases hrec : env.reconstructSubtitles
              (runPipeline env.translateBatch
                (if removeSDH = true then applySDH parsed0 else parsed0))
              fi.name with
          | error e' =>
              rw [hrec] at h
              dsimp only at h ⊢
              cases h
              rfl
          | ok t =>
              rw [hrec] at h
              dsimp only at h ⊢
              cases h

theorem getD_set_self (l : List α) {i : Nat} (v d : α) (hi : i < l.length) :
    (l.set i v).getD i d = v := by
  simp [List.getD, List.getElem?_set_eq, hi]

theorem getD_set_ne (l : List α) {i j : Nat} (v d : α) (h : j ≠ i) :
    (l.set i v).getD j d = l.getD j d := by
  simp [List.getD]
  rw [List.getElem?_set_ne (Ne.symm h)]

theorem foldl_set_length (f : Nat → FileItem) :
    ∀ (idxs : List Nat) (st : List FileItem),
      (idxs.foldl (fun acc i => acc.set i (f i)) st).length = st.length
  | [], _ => rfl
  | i :: rest, st => by
      rw [List.foldl_cons, foldl_set_length f rest, List.length_set]

theorem foldl_set_range_getD (f : Nat → FileItem) (len : Nat) :
    ∀ (n : Nat) (st : List FileItem), st.length = len → ∀ (k : Nat),
      ((List.range n).foldl (fun acc i => acc.set i (f i)) st).getD k default =
        if k < n ∧ k < len then f k else st.getD k default
  | 0, st, _, k => by simp
  | n + 1, st, hst, k => by
      rw [List.range_succ, List.foldl_append, List.foldl_cons, List.foldl_nil]
      by_cases hk : k = n
      · subst hk
        by_cases hklen : k < len
        · rw [getD_set_self _ _ _ (by rw [foldl_set_length, hst]; exact hklen)]
          rw [if_pos ⟨by omega, hklen⟩]
        · have hset : ((List.range k).foldl
              (fun acc i => acc.set i (f i)) st).set k (f k) =
              (List.range k).foldl (fun acc i => acc.set i (f i)) st := by
            apply List.set_eq_of_length_le
            rw [foldl_set_length, hst]
            omega
          rw [hset, foldl_set_range_getD f len k st hst k]
          split_ifs with h1 h2 <;> first | rfl | omega
      · rw [getD_set_ne _ _ _ hk, foldl_set_range_getD f len n st hst k]
        split_ifs with h1 h2 <;> first | rfl | omega

/-- The final file list is the snapshot with every position replaced by
the outcome of processing that position's snapshot item. -/
theorem runFiles_getD (env : Env) (removeSDH : Bool)
    (files : List FileItem) {k : Nat} (hk : k < files.length) :
    (runFiles env removeSDH files).getD k default =
      processOneFile env removeSDH k (files.getD k default) := by
  unfold runFiles
  rw [foldl_set_range_getD
      (fun i => processOneFile env removeSDH i (files.getD i default))
      files.length files.length files rfl k,
    if_pos ⟨hk, hk⟩]

/-- C8: if any of read, parse or reconstruct fails for file `j` (with
message `e`), then in the final file list that file's status is
`'error'`, its `error` field carries the message, and its
`translatedText` stays `null` (given that it was `null` before the run,
as for a freshly uploaded file); and regardless of the failure, every
file of the run — in particular every subsequent one — is still processed
to the outcome its own steps dictate: no error aborts the loop. -/
theorem C8_file_error_isolation (env : Env) (removeSDH : Bool)
    (files : List FileItem) (j : Nat) (e : String)
    (hj : j < files.length)
    (hfail : failsAt env removeSDH j (files.getD j default) = some e)
    (htn : (files.getD j default).translatedText = none) :
    ((runFiles env removeSDH files).getD j default).status = .error ∧
    ((runFiles env removeSDH files).getD j default).error = some e ∧
    ((runFiles env removeSDH files).getD j default).translatedText = none ∧
    (∀ k, k < files.length →
      (runFiles env removeSDH files).getD k default =
        processOneFile env removeSDH k (files.getD k default)) := by
  have hj' := runFiles_getD env removeSDH files hj
  rw [processOneFile_of_failsAt hfail] at hj'
  rw [hj']
  exact ⟨rfl, rfl, htn, fun k hk => runFiles_getD env removeSDH files hk⟩

theorem C8_file_error_isolation_witness :
    ((0 : Nat) <
        ([⟨"1", "a.srt", .pending, "", none, none, 0⟩,
          ⟨"2", "b.srt", .pending, "", none, none, 0⟩] :
          List FileItem).length ∧
      failsAt
        ⟨fun i => if i = 0 then .error "read failed" else .ok "Hello",
          fun t => .ok [{ text := t }],
          fun _ _ => .ok "out", fun ts => .ok ts⟩
        false 0
        (([⟨"1", "a.srt", .pending, "", none, none, 0⟩,
          ⟨"2", "b.srt", .pending, "", none, none, 0⟩] :
          List FileItem).getD 0 default) = some "read failed") ∧
    (((runFiles
        ⟨fun i => if i = 0 then .error "read failed" else .ok "Hello",
          fun t => .ok [{ text := t }],
          fun _ _ => .ok "out", fun ts => .ok ts⟩
        false
        [⟨"1", "a.srt", .pending, "", none, none, 0⟩,
          ⟨"2", "b.srt", .pending, "", none, none, 0⟩]).getD 0
          default).status = .error ∧
      ((runFiles
        ⟨fun i => if i = 0 then .error "read failed" else .ok "Hello",
          fun t => .ok [{ text := t }],
          fun _ _ => .ok "out", fun ts => .ok ts⟩
        false
        [⟨"1", "a.srt", .pending, "", none, none, 0⟩,
          ⟨"2", "b.srt", .pending, "", none, none, 0⟩]).getD 0
          default).error = some "read failed" ∧
      ((runFiles
        ⟨fun i => if i = 0 then .error "read failed" else .ok "Hello",
          fun t => .ok [{ text := t }],
          fun _ _ => .ok "out", fun ts => .ok ts⟩
        false
        [⟨"1", "a.srt", .pending, "", none, none, 0⟩,
          ⟨"2", "b.srt", .pending, "", none, none, 0⟩]).getD 0
          default).translatedText = none ∧
      (∀ k, k <
          ([⟨"1", "a.srt", .pending, "", none, none, 0⟩,
            ⟨"2", "b.srt", .pending, "", none, none, 0⟩] :
            List FileItem).length →
        (runFiles
          ⟨fun i => if i = 0 then .error "read failed" else .ok "Hello",
            fun t => .ok [{ text := t }],
            fun _ _ => .ok "out", fun ts => .ok ts⟩
          false
          [⟨"1", "a.srt", .pending, "", none, none, 0⟩,
            ⟨"2", "b.srt", .pending, "", none, none, 0⟩]).getD k default =
          processOneFile
            ⟨fun i => if i = 0 then .error "read failed" else .ok "Hello",
              fun t => .ok [{ text := t }],
              fun _ _ => .ok "out", fun ts => .ok ts⟩
            false k
            (([⟨"1", "a.srt", .pending, "", none, none, 0⟩,
              ⟨"2", "b.srt", .pending, "", none, none, 0⟩] :
              List FileItem).getD k default))) :=
  ⟨⟨by decide, by decide⟩,
    C8_file_error_isolation
      ⟨fun i => if i = 0 then .error "read failed" else .ok "Hello",
        fun t => .ok [{ text := t }],
        fun _ _ => .ok "out", fun ts => .ok ts⟩
      false
      [⟨"1", "a.srt", .pending, "", none, none, 0⟩,
        ⟨"2", "b.srt", .pending, "", none, none, 0⟩]
      0 "read failed" (by decide) (by decide) (by decide)⟩

/-- The component state touched by `handleStartProcessing`. -/
structure AppState where
  step : AppStep
  files : List FileItem
  progress : ℚ
  isProcessing : Bool
  currentProcessingFile : String
  history : List TranslationHistoryItem
deriving DecidableEq, Repr

/-- The history after a run.  `addToHistory` (App.tsx lines 66–77) is
called once per successfully completed file, but the `history` it closes
over is the render-time value captured when the run started, so each call
overwrites the previous one: the final history is
`[item(last done file), ...initialHistory].slice(0, 20)` — or the initial
history if no file completed.  `mk` is the external item constructor
(`Date.now`, locale date string). -/
def historyAfterRun (env : Env) (removeSDH : Bool) (files : List FileItem)
    (history0 : List TranslationHistoryItem)
    (mk : Nat → FileItem → TranslationHistoryItem) :
    List TranslationHistoryItem :=
  match ((List.range files.length).filter fun i =>
      decide ((processOneFile env removeSDH i (files.getD i default)).status
        = .done)).getLast? with
  | none => history0
  | some i =>
      ((mk i (processOneFile env removeSDH i (files.getD i default))) ::
        history0).take 20

/-- `handleStartProcessing` (App.tsx lines 80–183), as a state
transformer on the component state (the `alert` of the second guard is a
UI effect outside the state).  The final values of the pieces of state it
sets are: `step = RESULTS`, `isProcessing = false` (set `true` at the
start and `false` at line 181), `progress = 100` (line 182), the
processed file list, the history after the run, and
`currentProcessingFile` = the name of the last snapshot file. -/
def handleStartProcessing (env : Env)
    (mk : Nat → FileItem → TranslationHistoryItem)
    (sourceLang targetLang : String) (removeSDH : Bool)
    (st : AppState) : AppState :=
  if st.files.length = 0 then st
  else if sourceLang = targetLang then st
  else
    { st with
      step := .results
      isProcessing := false
      progress := 100
      files := runFiles env removeSDH st.files
      history := historyAfterRun env removeSDH st.files st.history mk
      currentProcessingFile :=
        (st.files.getD (st.files.length - 1) default).name }

/-- C9: if the uploaded file list is empty, or the source language equals
the target language, `handleStartProcessing` returns with the state
entirely unchanged (no file status or text changes, no progress, step or
history change) — and the result does not depend on the environment `env`
at all (the quantifier over `env` and `mk` in the conclusion), so in
particular `translateBatch` (and every other external call) is never
invoked. -/
theorem C9_guard_no_op (sourceLang targetLang : String) (removeSDH : Bool)
    (st : AppState)
    (h : st.files.length = 0 ∨ sourceLang = targetLang) :
    ∀ (env : Env) (mk : Nat → FileItem → TranslationHistoryItem),
      handleStartProcessing env mk sourceLang targetLang removeSDH st = st := by
  intro env mk
  unfold handleStartProcessing
  rcases h with h | h
  · rw [if_pos h]
  · by_cases h0 : st.files.length = 0
    · rw [if_pos h0]
    · rw [if_neg h0, if_pos h]

theorem C9_guard_no_op_witness :
    ((⟨AppStep.settings, [], 0, false, "", []⟩ : AppState).files.length = 0 ∨
      "English" = "English") ∧
    handleStartProcessing
      ⟨fun _ => .error "unreachable", fun _ => .error "unreachable",
        fun _ _ => .error "unreachable", fun _ => .error "unreachable"⟩
      (fun _ _ => ⟨"", "", "", "", ""⟩)
      "English" "English" true
      (⟨AppStep.settings, [], 0, false, "", []⟩ : AppState) =
      (⟨AppStep.settings, [], 0, false, "", []⟩ : AppState) :=
  ⟨Or.inl (by decide),
    C9_guard_no_op "English" "English" true
      ⟨AppStep.settings, [], 0, false, "", []⟩ (Or.inl (by decide))
      ⟨fun _ => .error "unreachable", fun _ => .error "unreachable",
        fun _ _ => .error "unreachable", fun _ => .error "unreachable"⟩
      (fun _ _ => ⟨"", "", "", "", ""⟩)⟩


/-! ### Subtitle codec

Modelled from the spec: `parseSubtitles` and `reconstructSubtitles` live
in `services/subtitleUtils.ts`, which is not among the provided sources;
the definitions below follow spec §4.1 and §6.  The codec recognises the
spec's three formats by structural cues in the text:

* the **timestamp-indexed cue format** (numeric index line, `-->`
  time-range line kept as a literal string, nonempty text block; blocks
  separated by blank lines);
* the **web-caption format** (a container signature line starting with
  `WEBVTT`, emitted as an `isHeader` entry, followed by `-->` cue blocks
  whose numeric index line is optional);
* the **script/style format** (bracketed section headers and other
  document-level metadata lines emitted as `isHeader` entries, and
  `Dialogue:` lines whose comma-separated prefix — the embedded time
  fields — is kept verbatim as the entry's `timestamp`).

A block of a recognised format that fails its cue grammar becomes a
verbatim `isMalformed` entry; a document of no recognised format degrades
to a single whole-document `isMalformed` entry, so `reconstruct` always
produces output.  Reconstruction renumbers indexed cues sequentially from
1, re-emits timestamps and header/malformed content verbatim, derives the
grammar from the entries produced at parse time, and treats
`filenameHint` as cosmetic only. -/

/-- A document as its list of lines (split on `'\n'`). -/
def docLines (s : String) : List String :=
  (s.toList.splitOn '\n').map List.asString

/-- Lines joined with the `'\n'` separator. -/
def joinNL (ls : List String) : String :=
  (List.intercalate ['\n'] (ls.map String.toList)).asString

def startsWithSeq : List Char → List Char → Bool
  | [], _ => true
  | _ :: _, [] => false
  | p :: ps, c :: cs => p = c && startsWithSeq ps cs

def containsSeq (pat : List Char) : List Char → Bool
  | [] => startsWithSeq pat []
  | c :: cs => startsWithSeq pat (c :: cs) || containsSeq pat cs

/-- One string is a prefix of another. -/
def startsWithStr (pre s : String) : Bool :=
  startsWithSeq pre.toList s.toList

/-- The `-->` timestamp separator occurs in the line. -/
def hasArrow (s : String) : Bool :=
  containsSeq ['-', '-', '>'] s.toList

/-- The line is a numeric cue index. -/
def isIndex (s : String) : Bool :=
  decide (s ≠ "") && s.toList.all Char.isDigit

/-- Decimal digit characters, defined by cases so that their properties
are immediate. -/
def digitChar : Nat → Char
  | 0 => '0' | 1 => '1' | 2 => '2' | 3 => '3' | 4 => '4'
  | 5 => '5' | 6 => '6' | 7 => '7' | 8 => '8' | _ => '9'

/-- Decimal digits of `n`, most significant first; the structural `fuel`
only bounds the recursion depth (`n / 10 < n`), and `fuel = n + 1` is
always sufficient. -/
def natDigitsAux : Nat → Nat → List Char
  | 0, _ => []
  | fuel + 1, n =>
      if n < 10 then [digitChar n]
      else natDigitsAux fuel (n / 10) ++ [digitChar (n % 10)]

/-- The decimal literal of `n`, used for renumbering cue indices. -/
def natLit (n : Nat) : String :=
  (natDigitsAux (n + 1) n).asString

/-- Split a character list right after its `n`-th comma: returns the
prefix (commas included) and the remainder, or `none` if there are fewer
than `n` commas. -/
def splitCommas : Nat → List Char → Option (List Char × List Char)
  | 0, l => some ([], l)
  | _ + 1, [] => none
  | n + 1, c :: rest =>
      match splitCommas (if c = ',' then n else n + 1) rest with
      | some (a, b) => some (c :: a, b)
      | none => none

/-- A bracket-delimited section header line (`[Script Info]`,
style/events sections), after trimming. -/
def isSectionHeader (s : String) : Bool :=
  match (jsTrim s).toList with
  | '[' :: rest => decide (rest ≠ []) && decide (rest.getLast? = some ']')
  | _ => false

/-- The blank-line-separated blocks of a line list; empty groups are
skipped, so trailing blank lines and the final unterminated block still
yield entries. -/
def blocksOf (ls : List String) : List (List String) :=
  (ls.splitOn "").filter fun b => !b.isEmpty

/-- A block whose first two lines match the numbered-cue shape. -/
def isCueBlock (b : List String) : Bool :=
  match b with
  | idL :: ts :: _ => isIndex idL && hasArrow ts
  | _ => false

/-- The first line with nonempty trimmed content. -/
def firstNonBlank (ls : List String) : Option String :=
  (ls.filter fun s => decide (jsTrim s ≠ "")).head?

inductive SubFormat where
  | srt | vtt | ass | unknown
deriving DecidableEq, Repr

/-- Modelled from the spec (§4.1): format detection by structural cues —
a container signature line, numbered-cue blocks with `-->` separators, or
script-info/style sections; the filename extension is only a hint and is
not consulted. -/
def detectFormat (doc : String) : SubFormat :=
  let ls := docLines doc
  match firstNonBlank ls with
  | some l0 =>
      if startsWithStr "WEBVTT" l0 then .vtt
      else if (blocksOf ls).any isCueBlock then .srt
      else if ls.any isSectionHeader then .ass
      else .unknown
  | none => .unknown

/-- Modelled from the spec (§4.1), indexed-cue format: a block either
matches the cue grammar — index line, timestamp line with `-->`, nonempty
text block — and yields a cue entry carrying the original literal
strings, or is emitted verbatim as `isMalformed`. -/
def parseBlockSRT (b : List String) : ParsedSubtitle :=
  match b with
  | idL :: ts :: rest =>
      if isIndex idL && hasArrow ts && !rest.isEmpty then
        { id := some idL, timestamp := some ts, text := joinNL rest }
      else { text := joinNL b, isMalformed := true }
  | _ => { text := joinNL b, isMalformed := true }

/-- Modelled from the spec (§4.1, §6), web-caption format: a cue block's
numeric index line is optional; the `-->` time-range line is kept as a
literal string; anything else is a verbatim `isMalformed` entry. -/
def parseBlockVTT (b : List String) : ParsedSubtitle :=
  match b with
  | l1 :: rest =>
      if hasArrow l1 && !rest.isEmpty then
        { timestamp := some l1, text := joinNL rest }
      else
        match rest with
        | l2 :: rest2 =>
            if isIndex l1 && hasArrow l2 && !rest2.isEmpty then
              { id := some l1, timestamp := some l2, text := joinNL rest2 }
            else { text := joinNL b, isMalformed := true }
        | [] => { text := joinNL b, isMalformed := true }
  | [] => { text := joinNL b, isMalformed := true }

/-- Web-caption parsing: the first block carries the container signature
and becomes an `isHeader` entry holding the verbatim block text; the
remaining blocks are cues. -/
def parseVTTBlocks : List (List String) → List ParsedSubtitle
  | [] => []
  | b :: rest =>
      (match b with
       | l0 :: _ =>
           if startsWithStr "WEBVTT" l0 then
             ({ text := joinNL b, isHeader := true } : ParsedSubtitle)
           else parseBlockVTT b
       | [] => parseBlockVTT b) :: rest.map parseBlockVTT

/-- Modelled from the spec (§4.1, §6), script/style format, line
oriented: a `Dialogue:` line splits after its ninth comma into the
embedded time/style fields (kept verbatim as `timestamp`) and the display
text; a `Dialogue:` line with too few fields is `isMalformed`; every
other line is document-level metadata (section headers, script info,
style definitions) and becomes an `isHeader` entry. -/
def parseLineASS (line : String) : ParsedSubtitle :=
  if startsWithStr "Dialogue:" line then
    match splitCommas 9 line.toList with
    | some (pre, txt) =>
        { timestamp := some pre.asString, text := txt.asString }
    | none => { text := line, isMalformed := true }
  else { text := line, isHeader := true }

/-- Modelled from the spec (§4.1): detect the format and decompose the
document; input of no recognised format degrades to a single
whole-document `isMalformed` entry, so reconstruction always produces
output. -/
def parseSubtitles (doc : String) : List ParsedSubtitle :=
  match detectFormat doc with
  | .srt => (blocksOf (docLines doc)).map parseBlockSRT
  | .vtt => parseVTTBlocks (blocksOf (docLines doc))
  | .ass => (docLines doc).map parseLineASS
  | .unknown => [{ text := doc, isMalformed := true }]

/-- Block re-emission for the block-structured formats: header and
malformed entries verbatim, indexed cues renumbered sequentially from
`n`, index-less cues without an index line, timestamps re-emitted
exactly. -/
def reconstructBlocks (n : Nat) : List ParsedSubtitle → List (List String)
  | [] => []
  | e :: rest =>
      if e.isHeader || e.isMalformed then
        docLines e.text :: reconstructBlocks n rest
      else
        match e.id, e.timestamp with
        | some _, some ts =>
            (natLit n :: ts :: docLines e.text) ::
              reconstructBlocks (n + 1) rest
        | none, some ts =>
            (ts :: docLines e.text) :: reconstructBlocks n rest
        | _, none => docLines e.text :: reconstructBlocks n rest

/-- Line re-emission for the script/style format: metadata and malformed
lines verbatim, dialogue lines as their verbatim field prefix followed by
the (possibly translated) text. -/
def assLine (e : ParsedSubtitle) : String :=
  if e.isHeader || e.isMalformed then e.text
  else
    match e.timestamp with
    | some ts => ts ++ e.text
    | none => e.text

/-- The entries carry a leading web-caption container signature. -/
def vttSig (entries : List ParsedSubtitle) : Bool :=
  match entries with
  | e :: _ => e.isHeader && startsWithStr "WEBVTT" e.text
  | [] => false

/-- Modelled from the spec (§4.1): reassemble a document in the grammar
detected at parse time, derived from the shape of the entries (a leading
container-signature header means the web-caption block grammar; header
entries without it mean the line-oriented script/style grammar; otherwise
the blank-line-separated block grammar).  `filenameHint` is cosmetic only
and never selects the grammar. -/
def reconstructSubtitles (entries : List ParsedSubtitle)
    (filenameHint : String) : String :=
  if (entries.any fun e => e.isHeader) && !vttSig entries then
    joinNL (entries.map assLine)
  else
    joinNL (List.intercalate [""] (reconstructBlocks 1 entries))

/-- Block hygiene shared by the block-structured formats: nonempty, no
blank line (so the blank-line block structure is unambiguous), no
embedded newline (automatic for real lines). -/
def goodBlock (b : List String) : Bool :=
  decide (b ≠ []) &&
  b.all fun s => decide (s ≠ "") && decide ('\n' ∉ s.toList)

/-- A well-formed indexed-format cue block: any numeric index (not
necessarily sequential), a `-->` time-range line, a nonempty text
block. -/
def checkBlockSRT (b : List String) : Bool :=
  goodBlock b &&
  (match b with
   | idL :: ts :: rest => isIndex idL && hasArrow ts && decide (rest ≠ [])
   | _ => false)

/-- A well-formed web-caption cue block: a `-->` time-range line with a
nonempty text block, optionally preceded by a numeric index line. -/
def checkCueVTT (b : List String) : Bool :=
  goodBlock b &&
  (match b with
   | l1 :: rest =>
       (hasArrow l1 && decide (rest ≠ [])) ||
       (match rest with
        | l2 :: rest2 => isIndex l1 && hasArrow l2 && decide (rest2 ≠ [])
        | [] => false)
   | [] => false)

/-- A well-formed web-caption document: a signature block whose first
line starts with `WEBVTT`, followed by well-formed cue blocks. -/
def checkVTT (ls : List String) : Bool :=
  match ls.splitOn "" with
  | b0 :: rest =>
      (match b0 with
       | l0 :: _ => startsWithStr "WEBVTT" l0
       | [] => false) &&
      goodBlock b0 && rest.all checkCueVTT
  | [] => false

/-- A well-formed script/style document: its first line is a bracketed
section header (the spec's script-info/style sections come first,
dialogue lines follow). -/
def checkASS (ls : List String) : Bool :=
  match ls with
  | l0 :: _ => decide (l0.toList.head? = some '[')
  | [] => false

/-- A well-formed document of a supported format: the format detection
recognises it, and its content satisfies that format's grammar. -/
def wellFormedDoc (doc : String) : Bool :=
  match detectFormat doc with
  | .srt => ((docLines doc).splitOn "").all checkBlockSRT
  | .vtt => checkVTT (docLines doc)
  | .ass => checkASS (docLines doc)
  | .unknown => false

/-- Structural equivalence of two entries in the sense of the round-trip
property: same timestamp, same classification, and identical text for
header entries (cue indices may be renumbered, cue text may be
translated). -/
def entryStructEq (e1 e2 : ParsedSubtitle) : Bool :=
  decide (e1.timestamp = e2.timestamp) && decide (e1.isHeader = e2.isHeader) &&
  decide (e1.isMalformed = e2.isMalformed) &&
  (if e1.isHeader then decide (e1.text = e2.text) else true)

/-- Entrywise structural equivalence of two entry sequences: same count,
same order. -/
def entriesStructEq (l1 l2 : List ParsedSubtitle) : Bool :=
  decide (l1.length = l2.length) &&
  (l1.zip l2).all fun p => entryStructEq p.1 p.2

/-- Structural equivalence of two documents: their parses have the same
entry count and agree entrywise in order (timestamps, classification,
header content). -/
def structEquiv (d1 d2 : String) : Bool :=
  entriesStructEq (parseSubtitles d1) (parseSubtitles d2)

/-! ### Codec lemmas: strings and lines -/

theorem asString_ne_empty {l : List Char} (h : l ≠ []) : l.asString ≠ "" := by
  intro hc
  apply h
  have h2 := congrArg String.toList hc
  rwa [List.toList_asString, String.toList_empty] at h2

theorem asString_append (a b : List Char) :
    (a ++ b).asString = a.asString ++ b.asString := by
  refine String.toList_inj.mp ?_
  rw [List.toList_asString]
  show a ++ b = (a.asString ++ b.asString).data
  rw [String.data_append]
  show a ++ b = (a.asString).toList ++ (b.asString).toList
  rw [List.toList_asString, List.toList_asString]

theorem docLines_joinNL {ls : List String} (hne : ls ≠ [])
    (hnl : ∀ s ∈ ls, '\n' ∉ s.toList) : docLines (joinNL ls) = ls := by
  unfold docLines joinNL
  rw [List.toList_asString]
  rw [List.splitOn_intercalate (ls.map String.toList) '\n'
    (by
      intro l hl
      obtain ⟨s, hs, rfl⟩ := List.mem_map.mp hl
      exact hnl s hs)
    (by simpa using hne)]
  rw [List.map_map]
  have hco : (List.asString ∘ String.toList) = id := by
    funext s
    exact String.asString_toList s
  rw [hco, List.map_id]

theorem joinNL_docLines (s : String) : joinNL (docLines s) = s := by
  unfold docLines joinNL
  rw [List.map_map]
  have hco : (String.toList ∘ List.asString) = id := by
    funext l
    exact List.toList_asString l
  rw [hco, List.map_id, List.intercalate_splitOn, String.asString_toList]

theorem hasArrow_ne_empty {s : String} (h : hasArrow s = true) : s ≠ "" := by
  intro hc
  subst hc
  exact absurd h (by decide)

theorem startsWithSeq_append :
    ∀ (p l m : List Char), startsWithSeq p l = true →
      startsWithSeq p (l ++ m) = true
  | [], _, _, _ => rfl
  | p :: ps, [], _, h => absurd h (by simp [startsWithSeq])
  | p :: ps, c :: cs, m, h => by
      simp only [startsWithSeq, Bool.and_eq_true, decide_eq_true_eq] at h ⊢
      exact ⟨h.1, startsWithSeq_append ps cs m h.2⟩

theorem startsWithSeq_head :
    ∀ {p : Char} {ps l : List Char}, startsWithSeq (p :: ps) l = true →
      ∃ tl, l = p :: tl := by
  intro p ps l h
  cases l with
  | nil => exact absurd h (by simp [startsWithSeq])
  | cons c cs =>
      simp only [startsWithSeq, Bool.and_eq_true, decide_eq_true_eq] at h
      exact ⟨cs, by rw [h.1]⟩

theorem containsSeq_arrow_false {l : List Char} (h : ∀ c ∈ l, ¬c = '-') :
    containsSeq ['-', '-', '>'] l = false := by
  induction l with
  | nil => rfl
  | cons c cs ih =>
      have hrest : containsSeq ['-', '-', '>'] cs = false :=
        ih fun x hx => h x (List.mem_cons_of_mem _ hx)
      have hc : ('-' = c : Bool) = false :=
        decide_eq_false fun e => h c (List.mem_cons_self _ _) e.symm
      show (startsWithSeq ['-', '-', '>'] (c :: cs) ||
        containsSeq ['-', '-', '>'] cs) = false
      rw [hrest, Bool.or_false]
      show (('-' = c : Bool) && startsWithSeq ['-', '>'] cs) = false
      rw [hc, Bool.false_and]

theorem isIndex_facts {s : String} (h : isIndex s = true) :
    s ≠ "" ∧ ∀ c ∈ s.toList, c.isDigit = true := by
  unfold isIndex at h
  simp only [Bool.and_eq_true, decide_eq_true_eq, List.all_eq_true] at h
  exact h

theorem isDigit_not_dash {c : Char} (h : c.isDigit = true) : ¬c = '-' := by
  intro e
  subst e
  exact absurd h (by decide)

theorem isDigit_not_newline {c : Char} (h : c.isDigit = true) : ¬c = '\n' := by
  intro e
  subst e
  exact absurd h (by decide)

theorem isDigit_not_ws {c : Char} (h : c.isDigit = true) : isWS c = false := by
  unfold isWS
  have h1 : (c = ' ' : Bool) = false :=
    decide_eq_false fun e => by subst e; exact absurd h (by decide)
  have h2 : (c = '\t' : Bool) = false :=
    decide_eq_false fun e => by subst e; exact absurd h (by decide)
  have h3 : (c = '\n' : Bool) = false :=
    decide_eq_false fun e => by subst e; exact absurd h (by decide)
  have h4 : (c = '\r' : Bool) = false :=
    decide_eq_false fun e => by subst e; exact absurd h (by decide)
  rw [h1, h2, h3, h4]
  rfl

theorem isDigit_not_W {c : Char} (h : c.isDigit = true) : ¬c = 'W' := by
  intro e
  subst e
  exact absurd h (by decide)

theorem isIndex_hasArrow_false {s : String} (h : isIndex s = true) :
    hasArrow s = false := by
  unfold hasArrow
  exact containsSeq_arrow_false fun c hc =>
    isDigit_not_dash ((isIndex_facts h).2 c hc)

theorem digitChar_isDigit (d : Nat) : (digitChar d).isDigit = true := by
  unfold digitChar
  split <;> decide

theorem natDigitsAux_all_digit :
    ∀ (fuel n : Nat), ∀ c ∈ natDigitsAux fuel n, c.isDigit = true
  | 0, n => by simp [natDigitsAux]
  | fuel + 1, n => by
      intro c hc
      rw [natDigitsAux] at hc
      by_cases h10 : n < 10
      · rw [if_pos h10] at hc
        simp only [List.mem_singleton] at hc
        subst hc
        exact digitChar_isDigit n
      · rw [if_neg h10] at hc
        rcases List.mem_append.mp hc with h | h
        · exact natDigitsAux_all_digit fuel (n / 10) c h
        · simp only [List.mem_singleton] at h
          subst h
          exact digitChar_isDigit (n % 10)

theorem natDigitsAux_ne_nil (fuel n : Nat) (h : 0 < fuel) :
    natDigitsAux fuel n ≠ [] := by
  match fuel with
  | 0 => omega
  | fuel + 1 =>
      rw [natDigitsAux]
      by_cases h10 : n < 10
      · rw [if_pos h10]
        simp
      · rw [if_neg h10]
        simp

theorem natLit_toList (n : Nat) :
    (natLit n).toList = natDigitsAux (n + 1) n :=
  List.toList_asString _

theorem natLit_all_digit (n : Nat) :
    ∀ c ∈ (natLit n).toList, c.isDigit = true := by
  rw [natLit_toList]
  exact natDigitsAux_all_digit (n + 1) n

theorem isIndex_natLit (n : Nat) : isIndex (natLit n) = true := by
  unfold isIndex
  simp only [Bool.and_eq_true, decide_eq_true_eq, List.all_eq_true]
  exact ⟨asString_ne_empty (natDigitsAux_ne_nil (n + 1) n (by omega)),
    natLit_all_digit n⟩

theorem hasArrow_natLit (n : Nat) : hasArrow (natLit n) = false :=
  isIndex_hasArrow_false (isIndex_natLit n)

theorem natLit_no_newline (n : Nat) : '\n' ∉ (natLit n).toList := by
  intro hmem
  exact isDigit_not_newline (natLit_all_digit n '\n' hmem) rfl

theorem natLit_head :
    ∀ (n : Nat), ∃ d tl, (natLit n).toList = d :: tl ∧ d.isDigit = true := by
  intro n
  cases hl : (natLit n).toList with
  | nil =>
      rw [natLit_toList] at hl
      exact absurd hl (natDigitsAux_ne_nil (n + 1) n (by omega))
  | cons d tl =>
      refine ⟨d, tl, rfl, ?_⟩
      have := natLit_all_digit n d
      rw [hl] at this
      exact this (List.mem_cons_self _ _)

theorem startsWithStr_WEBVTT_natLit (n : Nat) :
    startsWithStr "WEBVTT" (natLit n) = false := by
  obtain ⟨d, tl, hl, hd⟩ := natLit_head n
  unfold startsWithStr
  rw [hl]
  show (startsWithSeq ('W' :: "EBVTT".toList) (d :: tl)) = false
  have hne : ('W' = d : Bool) = false :=
    decide_eq_false fun e => isDigit_not_W hd e.symm
  show (('W' = d : Bool) && startsWithSeq "EBVTT".toList tl) = false
  rw [hne, Bool.false_and]

theorem trimList_ne_nil {c : Char} {tl : List Char} (hc : isWS c = false) :
    trimList (c :: tl) ≠ [] := by
  unfold trimList
  rw [List.dropWhile_cons, hc]
  simp only [Bool.false_eq_true, if_false]
  intro hcon
  have h1 : ((c :: tl).reverse.dropWhile isWS) = [] := by
    have := congrArg List.reverse hcon
    simpa using this
  have h2 : ∀ x ∈ (c :: tl).reverse, isWS x = true :=
    List.dropWhile_eq_nil_iff.mp h1
  have := h2 c (by simp)
  rw [hc] at this
  cases this

theorem jsTrim_ne_empty_of_head {s : String} {c : Char} {tl : List Char}
    (h : s.toList = c :: tl) (hc : isWS c = false) : jsTrim s ≠ "" := by
  unfold jsTrim
  rw [h]
  exact asString_ne_empty (trimList_ne_nil hc)

theorem splitCommas_append :
    ∀ (n : Nat) (l a b : List Char), splitCommas n l = some (a, b) →
      a ++ b = l
  | 0, l, a, b, h => by
      rw [splitCommas] at h
      cases h
      rfl
  | n + 1, [], a, b, h => by
      rw [splitCommas] at h
      cases h
  | n + 1, c :: rest, a, b, h => by
      rw [splitCommas] at h
      cases hrec : splitCommas (if c = ',' then n else n + 1) rest with
      | none => rw [hrec] at h; cases h
      | some p =>
          obtain ⟨a0, b0⟩ := p
          rw [hrec] at h
          injection h with h2
          injection h2 with ha hb
          subst ha
          subst hb
          show (c :: a0) ++ b0 = c :: rest
          rw [List.cons_append, splitCommas_append _ rest a0 b0 hrec]
termination_by n l _ _ => l.length

theorem mem_intersperse {α : Type} {sep x : α} :
    ∀ {l : List α}, x ∈ l.intersperse sep → x = sep ∨ x ∈ l
  | [], h => absurd h (List.not_mem_nil x)
  | [a], h => by
      simp only [List.intersperse_singleton, List.mem_singleton] at h
      exact Or.inr (by simp [h])
  | a :: b :: rest, h => by
      rw [List.intersperse_cons_cons] at h
      rcases List.mem_cons.mp h with rfl | h1
      · exact Or.inr (List.mem_cons_self _ _)
      · rcases List.mem_cons.mp h1 with rfl | h2
        · exact Or.inl rfl
        · rcases mem_intersperse h2 with h3 | h3
          · exact Or.inl h3
          · exact Or.inr (List.mem_cons_of_mem _ h3)

theorem mem_intercalate_lines {bs : List (List String)} {s : String}
    (h : s ∈ List.intercalate [""] bs) : s = "" ∨ ∃ b ∈ bs, s ∈ b := by
  unfold List.intercalate at h
  obtain ⟨L, hL, hsL⟩ := List.mem_flatten.mp h
  rcases mem_intersperse hL with rfl | hLbs
  · simp only [List.mem_singleton] at hsL
    exact Or.inl hsL
  · exact Or.inr ⟨L, hLbs, hsL⟩

theorem intercalate_cons_head {α : Type} (sep : List α) (b : List α)
    (rest : List (List α)) :
    ∃ t, List.intercalate sep (b :: rest) = b ++ t := by
  cases rest with
  | nil =>
      refine ⟨[], ?_⟩
      show (List.intersperse sep [b]).flatten = b ++ []
      rw [List.intersperse_singleton]
      simp
  | cons b2 rest2 =>
      refine ⟨sep ++ List.intercalate sep (b2 :: rest2), ?_⟩
      show (List.intersperse sep (b :: b2 :: rest2)).flatten = _
      rw [List.intersperse_cons_cons]
      show b ++ (sep ++ (List.intersperse sep (b2 :: rest2)).flatten) = _
      rfl

theorem goodBlock_facts {b : List String} (h : goodBlock b = true) :
    b ≠ [] ∧ ∀ s ∈ b, s ≠ "" ∧ '\n' ∉ s.toList := by
  unfold goodBlock at h
  simp only [Bool.and_eq_true, decide_eq_true_eq, List.all_eq_true] at h
  exact ⟨h.1, fun s hs => h.2 s hs⟩

/-- Reassembling hygienic blocks with blank-line separators and splitting
again recovers the blocks. -/
theorem blocks_reassemble {bs : List (List String)}
    (hgood : ∀ b ∈ bs, goodBlock b = true) (hne : bs ≠ []) :
    docLines (joinNL (List.intercalate [""] bs)) =
      List.intercalate [""] bs ∧
    (List.intercalate [""] bs).splitOn "" = bs := by
  constructor
  · apply docLines_joinNL
    · cases bs with
      | nil => exact absurd rfl hne
      | cons b rest =>
          obtain ⟨t, ht⟩ := intercalate_cons_head [""] b rest
          rw [ht]
          have hb := (goodBlock_facts (hgood b (List.mem_cons_self _ _))).1
          intro hc
          exact hb (List.append_eq_nil.mp hc).1
    · intro s hs
      rcases mem_intercalate_lines hs with rfl | ⟨b, hb, hsb⟩
      · simp
      · exact ((goodBlock_facts (hgood b hb)).2 s hsb).2
  · refine List.splitOn_intercalate bs "" ?_ hne
    intro b hb hmem
    exact ((goodBlock_facts (hgood b hb)).2 "" hmem).1 rfl

theorem entryStructEq_refl (e : ParsedSubtitle) : entryStructEq e e = true := by
  simp [entryStructEq]

theorem zip_self_entryStructEq :
    ∀ (l : List ParsedSubtitle),
      ((l.zip l).all fun p => entryStructEq p.1 p.2) = true
  | [] => rfl
  | e :: rest => by
      rw [show (e :: rest).zip (e :: rest) = (e, e) :: rest.zip rest from rfl,
        List.all_cons, entryStructEq_refl, zip_self_entryStructEq rest]
      rfl

theorem entriesStructEq_refl (l : List ParsedSubtitle) :
    entriesStructEq l l = true := by
  unfold entriesStructEq
  rw [zip_self_entryStructEq]
  simp

theorem structEquiv_refl (d : String) : structEquiv d d = true :=
  entriesStructEq_refl _

/-- Natural-number literals are nonempty strings. -/
theorem natLit_ne_empty (n : Nat) : natLit n ≠ "" :=
  (isIndex_facts (isIndex_natLit n)).1

/-- Round trip of the indexed-cue block list: re-emission yields
hygienic blocks of the same count whose re-parses are structurally
equivalent to the original parses (the index is renumbered, everything
else is identical). -/
theorem srt_blocks_roundtrip :
    ∀ (bs : List (List String)) (n : Nat), bs.all checkBlockSRT = true →
      (∀ b' ∈ reconstructBlocks n (bs.map parseBlockSRT),
        goodBlock b' = true) ∧
      (reconstructBlocks n (bs.map parseBlockSRT)).length = bs.length ∧
      (((reconstructBlocks n (bs.map parseBlockSRT)).map parseBlockSRT).zip
        (bs.map parseBlockSRT)).all (fun p => entryStructEq p.1 p.2) = true ∧
      (∀ b0 bt, bs = b0 :: bt → ∃ ts rt tl,
        reconstructBlocks n (bs.map parseBlockSRT) =
          (natLit n :: ts :: rt) :: tl ∧ hasArrow ts = true)
  | [], n, _ => ⟨by simp [reconstructBlocks], rfl, rfl,
      fun b0 bt h => by cases h⟩
  | b :: rest, n, hall => by
      rw [List.all_cons, Bool.and_eq_true] at hall
      obtain ⟨hb, hrest⟩ := hall
      unfold checkBlockSRT at hb
      rw [Bool.and_eq_true] at hb
      obtain ⟨hgood, hshape⟩ := hb
      cases b with
      | nil => simp at hshape
      | cons idL b1 =>
          cases b1 with
          | nil => simp at hshape
          | cons ts rtext =>
              simp only [Bool.and_eq_true, decide_eq_true_eq] at hshape
              obtain ⟨⟨hidx, harr⟩, hrne⟩ := hshape
              have hgf := goodBlock_facts hgood
              have hparse : parseBlockSRT (idL :: ts :: rtext) =
                  { id := some idL, timestamp := some ts,
                    text := joinNL rtext } := by
                simp [parseBlockSRT, hidx, harr, List.isEmpty_iff, hrne]
              have hrtext_nl : ∀ s ∈ rtext, '\n' ∉ s.toList := fun s hs =>
                (hgf.2 s (by simp [hs])).2
              have hdj : docLines (joinNL rtext) = rtext :=
                docLines_joinNL hrne hrtext_nl
              have hrecon : reconstructBlocks n
                  (parseBlockSRT (idL :: ts :: rtext) ::
                    rest.map parseBlockSRT) =
                  (natLit n :: ts :: rtext) ::
                    reconstructBlocks (n + 1) (rest.map parseBlockSRT) := by
                rw [hparse]
                simp [reconstructBlocks, hdj]
              have hgood' : goodBlock (natLit n :: ts :: rtext) = true := by
                unfold goodBlock
                simp only [Bool.and_eq_true, decide_eq_true_eq,
                  List.all_eq_true]
                refine ⟨by simp, ?_⟩
                intro s hs
                rcases List.mem_cons.mp hs with rfl | hs1
                · exact ⟨natLit_ne_empty n, natLit_no_newline n⟩
                · exact hgf.2 s (by simp [hs1])
              have hparse' : parseBlockSRT (natLit n :: ts :: rtext) =
                  { id := some (natLit n), timestamp := some ts,
                    text := joinNL rtext } := by
                simp [parseBlockSRT, isIndex_natLit, harr,
                  List.isEmpty_iff, hrne]
              obtain ⟨ih1, ih2, ih3, _⟩ :=
                srt_blocks_roundtrip rest (n + 1) hrest
              rw [List.map_cons, hrecon]
              refine ⟨?_, ?_, ?_, ?_⟩
              · intro b' hb'
                rcases List.mem_cons.mp hb' with rfl | hmem
                · exact hgood'
                · exact ih1 b' hmem
              · simp [ih2]
              · rw [List.map_cons, hparse', hparse, List.zip_cons_cons,
                  List.all_cons, Bool.and_eq_true]
                exact ⟨by simp [entryStructEq], ih3⟩
              · intro b0 bt _
                exact ⟨ts, rtext, _, rfl, harr⟩

/-- Round trip of the web-caption cue block list: index-less cue blocks
are re-emitted verbatim, indexed cue blocks with a renumbered index;
re-parses are structurally equivalent to the original parses. -/
theorem vtt_blocks_roundtrip :
    ∀ (bs : List (List String)) (n : Nat), bs.all checkCueVTT = true →
      (∀ b' ∈ reconstructBlocks n (bs.map parseBlockVTT),
        goodBlock b' = true) ∧
      (reconstructBlocks n (bs.map parseBlockVTT)).length = bs.length ∧
      (((reconstructBlocks n (bs.map parseBlockVTT)).map parseBlockVTT).zip
        (bs.map parseBlockVTT)).all (fun p => entryStructEq p.1 p.2) = true
  | [], n, _ => ⟨by simp [reconstructBlocks], rfl, rfl⟩
  | b :: rest, n, hall => by
      rw [List.all_cons, Bool.and_eq_true] at hall
      obtain ⟨hb, hrest⟩ := hall
      unfold checkCueVTT at hb
      rw [Bool.and_eq_true] at hb
      obtain ⟨hgood, hshape⟩ := hb
      obtain ⟨ih1, ih2, ih3⟩ := vtt_blocks_roundtrip rest (n + 1) hrest
      obtain ⟨ih1', ih2', ih3'⟩ := vtt_blocks_roundtrip rest n hrest
      cases b with
      | nil => simp at hshape
      | cons l1 rest1 =>
          have hgf := goodBlock_facts hgood
          by_cases harr1 : hasArrow l1 = true
          · have hrne1 : rest1 ≠ [] := by
              rw [Bool.or_eq_true] at hshape
              rcases hshape with h1 | h2
              · rw [Bool.and_eq_true, decide_eq_true_eq] at h1
                exact h1.2
              · cases rest1 with
                | nil => simp at h2
                | cons l2 rest2 =>
                    simp only [Bool.and_eq_true, decide_eq_true_eq] at h2
                    rw [isIndex_hasArrow_false h2.1.1] at harr1
                    cases harr1
            have hparse : parseBlockVTT (l1 :: rest1) =
                { timestamp := some l1, text := joinNL rest1 } := by
              simp [parseBlockVTT, harr1, List.isEmpty_iff, hrne1]
            have hdj : docLines (joinNL rest1) = rest1 :=
              docLines_joinNL hrne1 fun s hs =>
                (hgf.2 s (by simp [hs])).2
            have hrecon : reconstructBlocks n
                (parseBlockVTT (l1 :: rest1) :: rest.map parseBlockVTT) =
                (l1 :: rest1) ::
                  reconstructBlocks n (rest.map parseBlockVTT) := by
              rw [hparse]
              simp [reconstructBlocks, hdj]
            rw [List.map_cons, hrecon]
            refine ⟨?_, ?_, ?_⟩
            · intro b' hb'
              rcases List.mem_cons.mp hb' with rfl | hmem
              · exact hgood
              · exact ih1' b' hmem
            · simp [ih2']
            · rw [List.map_cons, hparse, List.zip_cons_cons, List.all_cons,
                Bool.and_eq_true]
              exact ⟨by simp [entryStructEq], ih3'⟩
          · have harr1' : hasArrow l1 = false := by
              cases hv : hasArrow l1
              · rfl
              · exact absurd hv harr1
            have hshape2 : ∃ l2 rest2, rest1 = l2 :: rest2 ∧
                isIndex l1 = true ∧ hasArrow l2 = true ∧ rest2 ≠ [] := by
              rw [Bool.or_eq_true] at hshape
              rcases hshape with h1 | h2
              · rw [Bool.and_eq_true] at h1
                rw [harr1'] at h1
                cases h1.1
              · cases rest1 with
                | nil => simp at h2
                | cons l2 rest2 =>
                    simp only [Bool.and_eq_true, decide_eq_true_eq] at h2
                    exact ⟨l2, rest2, rfl, h2.1.1, h2.1.2, h2.2⟩
            obtain ⟨l2, rest2, rfl, hidx, harr2, hrne2⟩ := hshape2
            have hparse : parseBlockVTT (l1 :: l2 :: rest2) =
                { id := some l1, timestamp := some l2,
                  text := joinNL rest2 } := by
              simp [parseBlockVTT, harr1', hidx, harr2,
                List.isEmpty_iff, hrne2]
            have hdj : docLines (joinNL rest2) = rest2 :=
              docLines_joinNL hrne2 fun s hs =>
                (hgf.2 s (by simp [hs])).2
            have hrecon : reconstructBlocks n
                (parseBlockVTT (l1 :: l2 :: rest2) ::
                  rest.map parseBlockVTT) =
                (natLit n :: l2 :: rest2) ::
                  reconstructBlocks (n + 1) (rest.map parseBlockVTT) := by
              rw [hparse]
              simp [reconstructBlocks, hdj]
            have hgood' : goodBlock (natLit n :: l2 :: rest2) = true := by
              unfold goodBlock
              simp only [Bool.and_eq_true, decide_eq_true_eq,
                List.all_eq_true]
              refine ⟨by simp, ?_⟩
              intro s hs
              rcases List.mem_cons.mp hs with rfl | hs1
              · exact ⟨natLit_ne_empty n, natLit_no_newline n⟩
              · exact hgf.2 s (by simp [hs1])
            have hparse' : parseBlockVTT (natLit n :: l2 :: rest2) =
                { id := some (natLit n), timestamp := some l2,
                  text := joinNL rest2 } := by
              simp [parseBlockVTT, hasArrow_natLit, isIndex_natLit, harr2,
                List.isEmpty_iff, hrne2]
            rw [List.map_cons, hrecon]
            refine ⟨?_, ?_, ?_⟩
            · intro b' hb'
              rcases List.mem_cons.mp hb' with rfl | hmem
              · exact hgood'
              · exact ih1 b' hmem
            · simp [ih2]
            · rw [List.map_cons, hparse', List.zip_cons_cons, List.all_cons,
                Bool.and_eq_true]
              exact ⟨by simp [entryStructEq, hparse], ih3⟩

/-! ### Codec lemmas: format dispatch -/

/-- Splitting on the blank separator always yields at least one group. -/
theorem splitOn_blank_ne_nil (ls : List String) : ls.splitOn "" ≠ [] := by
  show ls.splitOnP (fun s => s == "") ≠ []
  exact List.splitOnP_ne_nil _ ls

theorem filter_not_isEmpty_eq {bs : List (List String)}
    (h : ∀ b ∈ bs, b ≠ []) : bs.filter (fun b => !b.isEmpty) = bs := by
  apply List.filter_eq_self.mpr
  intro b hb
  cases hbb : b with
  | nil => exact absurd hbb (h b hb)
  | cons x xs => rfl

/-- When no group is empty, the block decomposition is exactly the
blank-line split. -/
theorem blocksOf_eq_splitOn {ls : List String}
    (h : ∀ b ∈ ls.splitOn "", b ≠ []) : blocksOf ls = ls.splitOn "" := by
  unfold blocksOf
  exact filter_not_isEmpty_eq h

/-- The indexed-cue parser never produces header entries. -/
theorem parseBlockSRT_not_header (b : List String) :
    (parseBlockSRT b).isHeader = false := by
  unfold parseBlockSRT
  split
  · split
    · rfl
    · rfl
  · rfl

theorem srt_parses_no_header (bs : List (List String)) :
    ((bs.map parseBlockSRT).any fun e => e.isHeader) = false := by
  rw [List.any_eq_false]
  intro e he
  obtain ⟨b, _, rfl⟩ := List.mem_map.mp he
  simp [parseBlockSRT_not_header]

/-- A sequence match fails immediately on a differing head character. -/
theorem startsWithSeq_ne_head {p c : Char} (ps cs : List Char)
    (h : ¬p = c) : startsWithSeq (p :: ps) (c :: cs) = false := by
  show ((p = c : Bool) && startsWithSeq ps cs) = false
  rw [decide_eq_false h, Bool.false_and]

/-- Script/style line re-emission is exact: metadata and malformed lines
verbatim, dialogue lines as their field prefix plus text. -/
theorem assLine_parseLineASS (line : String) :
    assLine (parseLineASS line) = line := by
  unfold parseLineASS
  by_cases hd : startsWithStr "Dialogue:" line = true
  · rw [if_pos hd]
    cases hsc : splitCommas 9 line.toList with
    | none => rfl
    | some p =>
        obtain ⟨pre, txt⟩ := p
        show pre.asString ++ txt.asString = line
        rw [← asString_append, splitCommas_append 9 line.toList pre txt hsc,
          String.asString_toList]
  · rw [if_neg hd]
    rfl

/-- Indexed-cue case of the round trip: a well-formed indexed-cue
document reconstructs to a document detected and re-parsed in the same
grammar, with entries structurally equivalent to the original parse. -/
theorem srtCaseRoundtrip (doc hint : String)
    (hdet : detectFormat doc = SubFormat.srt)
    (hwf : ((docLines doc).splitOn "").all checkBlockSRT = true) :
    structEquiv (reconstructSubtitles (parseSubtitles doc) hint) doc = true := by
  have hallgood : ∀ b ∈ (docLines doc).splitOn "", checkBlockSRT b = true := by
    rw [List.all_eq_true] at hwf
    exact hwf
  have hgoodb : ∀ b ∈ (docLines doc).splitOn "", goodBlock b = true := by
    intro b hb
    have h1 := hallgood b hb
    unfold checkBlockSRT at h1
    rw [Bool.and_eq_true] at h1
    exact h1.1
  have hboc : blocksOf (docLines doc) = (docLines doc).splitOn "" :=
    blocksOf_eq_splitOn fun b hb => (goodBlock_facts (hgoodb b hb)).1
  have hparse : parseSubtitles doc =
      ((docLines doc).splitOn "").map parseBlockSRT := by
    unfold parseSubtitles
    rw [hdet]
    show (blocksOf (docLines doc)).map parseBlockSRT = _
    rw [hboc]
  obtain ⟨hg, hlen, hzip, hhead⟩ :=
    srt_blocks_roundtrip ((docLines doc).splitOn "") 1 hwf
  obtain ⟨b0, bt, hbs⟩ :=
    List.exists_cons_of_ne_nil (splitOn_blank_ne_nil (docLines doc))
  obtain ⟨ts0, rt0, tl0, hshape, harr0⟩ := hhead b0 bt hbs
  have hbs'ne : reconstructBlocks 1
      (((docLines doc).splitOn "").map parseBlockSRT) ≠ [] := by
    rw [hshape]
    exact List.cons_ne_nil _ _
  obtain ⟨hdl, hsplit⟩ := blocks_reassemble hg hbs'ne
  have hrec : reconstructSubtitles
      (((docLines doc).splitOn "").map parseBlockSRT) hint =
      joinNL (List.intercalate [""]
        (reconstructBlocks 1
          (((docLines doc).splitOn "").map parseBlockSRT))) := by
    unfold reconstructSubtitles
    rw [srt_parses_no_header]
    rfl
  obtain ⟨t, ht⟩ := intercalate_cons_head [""] (natLit 1 :: ts0 :: rt0) tl0
  have hlines : List.intercalate [""]
      (reconstructBlocks 1 (((docLines doc).splitOn "").map parseBlockSRT)) =
      natLit 1 :: ((ts0 :: rt0) ++ t) := by
    rw [hshape, ht]
    rfl
  have hfnb : firstNonBlank (List.intercalate [""]
      (reconstructBlocks 1
        (((docLines doc).splitOn "").map parseBlockSRT))) =
      some (natLit 1) := by
    rw [hlines]
    unfold firstNonBlank
    rw [List.filter_cons]
    have hnb : decide (jsTrim (natLit 1) ≠ "") = true := by
      refine decide_eq_true ?_
      obtain ⟨d, tl, hl, hdg⟩ := natLit_head 1
      exact jsTrim_ne_empty_of_head hl (isDigit_not_ws hdg)
    rw [hnb]
    rfl
  have hboc' : blocksOf (List.intercalate [""]
      (reconstructBlocks 1
        (((docLines doc).splitOn "").map parseBlockSRT))) =
      reconstructBlocks 1 (((docLines doc).splitOn "").map parseBlockSRT) := by
    unfold blocksOf
    rw [hsplit]
    exact filter_not_isEmpty_eq fun b hb => (goodBlock_facts (hg b hb)).1
  have hcue : (reconstructBlocks 1
      (((docLines doc).splitOn "").map parseBlockSRT)).any isCueBlock = true := by
    rw [hshape, List.any_cons]
    have h1 : isCueBlock (natLit 1 :: ts0 :: rt0) = true := by
      show (isIndex (natLit 1) && hasArrow ts0) = true
      rw [isIndex_natLit, harr0]
      rfl
    rw [h1]
    rfl
  have hdet' : detectFormat (joinNL (List.intercalate [""]
      (reconstructBlocks 1
        (((docLines doc).splitOn "").map parseBlockSRT)))) =
      SubFormat.srt := by
    unfold detectFormat
    rw [hdl]
    dsimp only
    rw [hfnb]
    dsimp only
    rw [startsWithStr_WEBVTT_natLit, hboc', hcue]
    rfl
  have hparse' : parseSubtitles (joinNL (List.intercalate [""]
      (reconstructBlocks 1
        (((docLines doc).splitOn "").map parseBlockSRT)))) =
      (reconstructBlocks 1
        (((docLines doc).splitOn "").map parseBlockSRT)).map
        parseBlockSRT := by
    unfold parseSubtitles
    rw [hdet']
    show (blocksOf (docLines (joinNL _))).map parseBlockSRT = _
    rw [hdl, hboc']
  rw [hparse, hrec]
  unfold structEquiv
  rw [hparse', hparse]
  unfold entriesStructEq
  rw [Bool.and_eq_true]
  constructor
  · refine decide_eq_true ?_
    rw [List.length_map, hlen, List.length_map]
  · exact hzip

/-- Web-caption case of the round trip: a well-formed web-caption
document reconstructs to a document detected and re-parsed in the same
grammar, with entries structurally equivalent to the original parse. -/
theorem vttCaseRoundtrip (doc hint : String)
    (hdet : detectFormat doc = SubFormat.vtt)
    (hwf : checkVTT (docLines doc) = true) :
    structEquiv (reconstructSubtitles (parseSubtitles doc) hint) doc = true := by
  unfold checkVTT at hwf
  cases hsp : (docLines doc).splitOn "" with
  | nil =>
      rw [hsp] at hwf
      exact Bool.noConfusion hwf
  | cons b0 rest =>
      rw [hsp] at hwf
      dsimp only at hwf
      rw [Bool.and_eq_true, Bool.and_eq_true] at hwf
      obtain ⟨⟨hsig0, hgood0⟩, hcues⟩ := hwf
      cases b0 with
      | nil => exact Bool.noConfusion hsig0
      | cons l0 b0t =>
          have hsw0 : startsWithStr "WEBVTT" l0 = true := hsig0
          have hgoodall : ∀ b ∈ (docLines doc).splitOn "",
              goodBlock b = true := by
            intro b hb
            rw [hsp] at hb
            rcases List.mem_cons.mp hb with rfl | hb1
            · exact hgood0
            · have hc := (List.all_eq_true.mp hcues) b hb1
              unfold checkCueVTT at hc
              rw [Bool.and_eq_true] at hc
              exact hc.1
          have hboc : blocksOf (docLines doc) = (l0 :: b0t) :: rest := by
            rw [blocksOf_eq_splitOn
              fun b hb => (goodBlock_facts (hgoodall b hb)).1]
            exact hsp
          have hparse : parseSubtitles doc =
              ({ text := joinNL (l0 :: b0t), isHeader := true } :
                ParsedSubtitle) :: rest.map parseBlockVTT := by
            unfold parseSubtitles
            rw [hdet]
            show parseVTTBlocks (blocksOf (docLines doc)) = _
            rw [hboc]
            unfold parseVTTBlocks
            dsimp only
            rw [hsw0]
            rfl
          have hsig : startsWithStr "WEBVTT" (joinNL (l0 :: b0t)) = true := by
            unfold joinNL startsWithStr
            rw [List.toList_asString]
            obtain ⟨t0, ht0⟩ := intercalate_cons_head ['\n'] l0.toList
              (b0t.map String.toList)
            show startsWithSeq "WEBVTT".toList
              (List.intercalate ['\n']
                (l0.toList :: b0t.map String.toList)) = true
            rw [ht0]
            exact startsWithSeq_append _ _ _ hsw0
          have hvs : vttSig
              (({ text := joinNL (l0 :: b0t), isHeader := true } :
                ParsedSubtitle) :: rest.map parseBlockVTT) = true := by
            show (({ text := joinNL (l0 :: b0t), isHeader := true } :
              ParsedSubtitle).isHeader &&
              startsWithStr "WEBVTT" (joinNL (l0 :: b0t))) = true
            rw [hsig]
            rfl
          have hrecsel : reconstructSubtitles
              (({ text := joinNL (l0 :: b0t), isHeader := true } :
                ParsedSubtitle) :: rest.map parseBlockVTT) hint =
              joinNL (List.intercalate [""] (reconstructBlocks 1
                (({ text := joinNL (l0 :: b0t), isHeader := true } :
                  ParsedSubtitle) :: rest.map parseBlockVTT))) := by
            unfold reconstructSubtitles
            rw [hvs]
            rfl
          have hb0good := goodBlock_facts hgood0
          have hdj0 : docLines (joinNL (l0 :: b0t)) = l0 :: b0t :=
            docLines_joinNL (List.cons_ne_nil _ _)
              fun s hs => (hb0good.2 s hs).2
          have hrecb : reconstructBlocks 1
              (({ text := joinNL (l0 :: b0t), isHeader := true } :
                ParsedSubtitle) :: rest.map parseBlockVTT) =
              (l0 :: b0t) ::
                reconstructBlocks 1 (rest.map parseBlockVTT) := by
            show docLines (joinNL (l0 :: b0t)) ::
              reconstructBlocks 1 (rest.map parseBlockVTT) = _
            rw [hdj0]
          obtain ⟨hg, hlen, hzip⟩ := vtt_blocks_roundtrip rest 1 hcues
          have hall' : ∀ b ∈ (l0 :: b0t) ::
              reconstructBlocks 1 (rest.map parseBlockVTT),
              goodBlock b = true := by
            intro b hb
            rcases List.mem_cons.mp hb with rfl | hb1
            · exact hgood0
            · exact hg b hb1
          obtain ⟨hdl, hsplit⟩ := blocks_reassemble hall'
            (List.cons_ne_nil _ _)
          obtain ⟨tw, htw⟩ := intercalate_cons_head [""] (l0 :: b0t)
            (reconstructBlocks 1 (rest.map parseBlockVTT))
          have hlw : List.intercalate [""] ((l0 :: b0t) ::
              reconstructBlocks 1 (rest.map parseBlockVTT)) =
              l0 :: (b0t ++ tw) := by
            rw [htw]
            rfl
          obtain ⟨tlW, hlW⟩ :=
            startsWithSeq_head
              (show startsWithSeq ('W' :: "EBVTT".toList) l0.toList = true
                from hsw0)
          have hfnb : firstNonBlank (List.intercalate [""] ((l0 :: b0t) ::
              reconstructBlocks 1 (rest.map parseBlockVTT))) = some l0 := by
            rw [hlw]
            unfold firstNonBlank
            rw [List.filter_cons]
            have hnb : decide (jsTrim l0 ≠ "") = true :=
              decide_eq_true (jsTrim_ne_empty_of_head hlW (by decide))
            rw [hnb]
            rfl
          have hboc' : blocksOf (List.intercalate [""] ((l0 :: b0t) ::
              reconstructBlocks 1 (rest.map parseBlockVTT))) =
              (l0 :: b0t) ::
                reconstructBlocks 1 (rest.map parseBlockVTT) := by
            unfold blocksOf
            rw [hsplit]
            exact filter_not_isEmpty_eq
              fun b hb => (goodBlock_facts (hall' b hb)).1
          have hdet' : detectFormat (joinNL (List.intercalate [""]
              ((l0 :: b0t) ::
                reconstructBlocks 1 (rest.map parseBlockVTT)))) =
              SubFormat.vtt := by
            unfold detectFormat
            rw [hdl]
            dsimp only
            rw [hfnb]
            dsimp only
            rw [hsw0]
            rfl
          have hparse' : parseSubtitles (joinNL (List.intercalate [""]
              ((l0 :: b0t) ::
                reconstructBlocks 1 (rest.map parseBlockVTT)))) =
              ({ text := joinNL (l0 :: b0t), isHeader := true } :
                ParsedSubtitle) ::
                (reconstructBlocks 1 (rest.map parseBlockVTT)).map
                  parseBlockVTT := by
            unfold parseSubtitles
            rw [hdet']
            show parseVTTBlocks (blocksOf (docLines (joinNL _))) = _
            rw [hdl, hboc']
            unfold parseVTTBlocks
            dsimp only
            rw [hsw0]
            rfl
          rw [hparse, hrecsel, hrecb]
          unfold structEquiv
          rw [hparse', hparse]
          unfold entriesStructEq
          rw [Bool.and_eq_true]
          constructor
          · refine decide_eq_true ?_
            simp only [List.length_cons, List.length_map, hlen]
          · rw [List.zip_cons_cons, List.all_cons, Bool.and_eq_true]
            exact ⟨entryStructEq_refl _, hzip⟩

/-- Script/style case of the round trip: a well-formed script/style
document reconstructs byte-for-byte, so its re-parse is identical. -/
theorem assCaseRoundtrip (doc hint : String)
    (hdet : detectFormat doc = SubFormat.ass)
    (hwf : checkASS (docLines doc) = true) :
    structEquiv (reconstructSubtitles (parseSubtitles doc) hint) doc = true := by
  unfold checkASS at hwf
  cases hls : docLines doc with
  | nil =>
      rw [hls] at hwf
      exact Bool.noConfusion hwf
  | cons l0 lt =>
      rw [hls] at hwf
      dsimp only at hwf
      have hhead : l0.toList.head? = some '[' := of_decide_eq_true hwf
      obtain ⟨t0, ht0⟩ : ∃ t, l0.toList = '[' :: t := by
        cases hc : l0.toList with
        | nil => rw [hc] at hhead; cases hhead
        | cons c cs =>
            rw [hc] at hhead
            have h1 : c = '[' := by injection hhead
            exact ⟨cs, by rw [h1]⟩
      have hd0 : startsWithStr "Dialogue:" l0 = false := by
        unfold startsWithStr
        rw [ht0]
        show startsWithSeq ('D' :: "ialogue:".toList) ('[' :: t0) = false
        exact startsWithSeq_ne_head _ _ (by decide)
      have hw0 : startsWithStr "WEBVTT" l0 = false := by
        unfold startsWithStr
        rw [ht0]
        show startsWithSeq ('W' :: "EBVTT".toList) ('[' :: t0) = false
        exact startsWithSeq_ne_head _ _ (by decide)
      have hpl0 : parseLineASS l0 =
          { text := l0, isHeader := true } := by
        unfold parseLineASS
        rw [hd0]
        rfl
      have hparse : parseSubtitles doc =
          (docLines doc).map parseLineASS := by
        unfold parseSubtitles
        rw [hdet]
      have hany : ((docLines doc).map parseLineASS).any
          (fun e => e.isHeader) = true := by
        rw [hls, List.map_cons, List.any_cons, hpl0]
        rfl
      have hvs : vttSig ((docLines doc).map parseLineASS) = false := by
        rw [hls, List.map_cons, hpl0]
        show (({ text := l0, isHeader := true } :
          ParsedSubtitle).isHeader && startsWithStr "WEBVTT" l0) = false
        rw [hw0]
        rfl
      have hcomp : ((docLines doc).map parseLineASS).map assLine =
          docLines doc := by
        rw [List.map_map]
        have hco : (assLine ∘ parseLineASS) = id :=
          funext fun l => assLine_parseLineASS l
        rw [hco, List.map_id]
      have hrec : reconstructSubtitles ((docLines doc).map parseLineASS)
          hint = doc := by
        unfold reconstructSubtitles
        rw [hany, hvs]
        show joinNL (((docLines doc).map parseLineASS).map assLine) = doc
        rw [hcomp, joinNL_docLines]
      rw [hparse, hrec]
      exact structEquiv_refl doc

/-- C1: for any well-formed document of a supported subtitle format
(indexed-cue, web-caption, or script/style), `reconstruct(parse(doc))`
is structurally equivalent to `doc` — the two documents parse to the
same entry count, in the same order, with the same timestamps,
classification, and header content — when no entry text is mutated
between parse and reconstruct. -/
theorem C1_parse_reconstruct_roundtrip (doc hint : String)
    (hwf : wellFormedDoc doc = true) :
    structEquiv (reconstructSubtitles (parseSubtitles doc) hint) doc = true := by
  unfold wellFormedDoc at hwf
  cases hdet : detectFormat doc with
  | srt =>
      rw [hdet] at hwf
      exact srtCaseRoundtrip doc hint hdet hwf
  | vtt =>
      rw [hdet] at hwf
      exact vttCaseRoundtrip doc hint hdet hwf
  | ass =>
      rw [hdet] at hwf
      exact assCaseRoundtrip doc hint hdet hwf
  | unknown =>
      rw [hdet] at hwf
      exact Bool.noConfusion hwf

set_option maxRecDepth 100000 in
/-- Witness for C1 in each of the three formats: an indexed-cue document
with non-sequential indices 3 and 7, a web-caption document with a
signature block and a mixed cue pair, and a script/style document. -/
theorem C1_parse_reconstruct_roundtrip_witness :
    (wellFormedDoc
        "3\n00:00:01,000 --> 00:00:02,000\nHello\n\n7\n00:00:03,000 --> 00:00:04,000\nWorld" =
        true ∧
      structEquiv
        (reconstructSubtitles
          (parseSubtitles
            "3\n00:00:01,000 --> 00:00:02,000\nHello\n\n7\n00:00:03,000 --> 00:00:04,000\nWorld")
          "a.srt")
        "3\n00:00:01,000 --> 00:00:02,000\nHello\n\n7\n00:00:03,000 --> 00:00:04,000\nWorld" =
        true) ∧
    (wellFormedDoc
        "WEBVTT\n\n00:01.000 --> 00:02.000\nHello\n\n2\n00:03.000 --> 00:04.000\nWorld" =
        true ∧
      structEquiv
        (reconstructSubtitles
          (parseSubtitles
            "WEBVTT\n\n00:01.000 --> 00:02.000\nHello\n\n2\n00:03.000 --> 00:04.000\nWorld")
          "a.vtt")
        "WEBVTT\n\n00:01.000 --> 00:02.000\nHello\n\n2\n00:03.000 --> 00:04.000\nWorld" =
        true) ∧
    (wellFormedDoc
        "[Script Info]\nTitle: x\n\n[Events]\nDialogue: 0,0:00:01.00,0:00:02.00,Default,,0,0,0,,Hello" =
        true ∧
      structEquiv
        (reconstructSubtitles
          (parseSubtitles
            "[Script Info]\nTitle: x\n\n[Events]\nDialogue: 0,0:00:01.00,0:00:02.00,Default,,0,0,0,,Hello")
          "a.ass")
        "[Script Info]\nTitle: x\n\n[Events]\nDialogue: 0,0:00:01.00,0:00:02.00,Default,,0,0,0,,Hello" =
        true) :=
  ⟨⟨by decide, C1_parse_reconstruct_roundtrip _ "a.srt" (by decide)⟩,
   ⟨by decide, C1_parse_reconstruct_roundtrip _ "a.vtt" (by decide)⟩,
   ⟨by decide, C1_parse_reconstruct_roundtrip _ "a.ass" (by decide)⟩⟩

end Subtranslator
